import Mathlib

/-!
A shallow embedding of the object-tree / Merkle-DAG library of this
repository (`lib/object-tree/src/graph.rs`), together with proofs of the
specification's claims about it.

Byte streams are modelled as `List Char` (the serialized form is
line-oriented text), readers as functions consuming a prefix of such a
stream, and writers as functions returning the bytes they would emit.
The payload type `T` is kept generic, with its trait operations
(`NameStr`, `ObjectKindStr`, `WriteBytes`, `ReadBytes`) bundled in a
`PayloadOps` record.
-/

namespace SI

set_option maxRecDepth 20000

deriving instance DecidableEq for Except

/-- Whether a node is a leaf or a tree (`NodeKind` in the source). -/
inductive NodeKind where
  | leaf
  | tree
deriving DecidableEq

instance : Inhabited NodeKind := ⟨.leaf⟩

/-- Serialized form of a `NodeKind` (strum `AsRefStr`, camelCase): `leaf`
or `tree`. -/
def NodeKind.asRef : NodeKind → List Char
  | .leaf => "leaf".data
  | .tree => "tree".data

/-- Parser for a `NodeKind` (strum `EnumString`, camelCase): exactly the
strings `leaf` and `tree` parse; anything else fails. -/
def NodeKind.fromStr (s : List Char) : Option NodeKind :=
  if s = "leaf".data then some .leaf
  else if s = "tree".data then some .tree
  else none

/-- Modelled from the spec: `crate::Hash` is not under `src/`. Per the spec
it is a 32-byte opaque digest constructed by a pure deterministic function
of a byte slice (the concrete algorithm is an implementation choice),
displayed as lowercase hex, and parsed back from hex with failure on wrong
length or non-hex input. The digest is modelled as a list of bytes. -/
structure Hash where
  digest : List (Fin 256)
deriving DecidableEq

/-- Modelled from the spec: a pure deterministic digest of the input bytes
producing 32 bytes. No property proved below depends on anything beyond
the digest being a function of the input bytes. -/
def Hash.new (data : List Char) : Hash :=
  let seed : Nat := data.foldl (fun a c => (a * 33 + c.toNat + 1) % 4294967296) 5381
  ⟨(List.range 32).map (fun i => Fin.ofNat (seed / 256 ^ (i % 4) + i))⟩

/-- Lowercase hex digit for a value below 16. -/
def hexDigit (n : Nat) : Char :=
  if n < 10 then Char.ofNat ('0'.toNat + n) else Char.ofNat ('a'.toNat + (n - 10))

/-- Modelled from the spec: `Display` for `Hash` emits two lowercase hex
characters per digest byte. -/
def Hash.display (h : Hash) : List Char :=
  (h.digest.map (fun b => [hexDigit (b.val / 16), hexDigit (b.val % 16)])).flatten

/-- Value of a lowercase hex digit character, if it is one. -/
def hexVal (c : Char) : Option Nat :=
  if '0'.toNat ≤ c.toNat ∧ c.toNat ≤ '9'.toNat then some (c.toNat - '0'.toNat)
  else if 'a'.toNat ≤ c.toNat ∧ c.toNat ≤ 'f'.toNat then some (10 + c.toNat - 'a'.toNat)
  else none

/-- Decodes a list of hex digit pairs into bytes; fails on a non-hex
character or an odd length. -/
def hexPairsToBytes : List Char → Option (List (Fin 256))
  | [] => some []
  | [_] => none
  | c1 :: c2 :: rest =>
    match hexVal c1, hexVal c2, hexPairsToBytes rest with
    | some h1, some h2, some bs => some (Fin.ofNat (h1 * 16 + h2) :: bs)
    | _, _, _ => none

/-- Modelled from the spec: `FromStr` for `Hash` parses exactly the 64
lowercase hex characters of the display form and fails with an invalid-hash
error on wrong length or non-hex input. -/
def Hash.fromStr (s : List Char) : Option Hash :=
  if s.length = 64 then (hexPairsToBytes s).map Hash.mk else none

/-- A hash whose digest has the width `Hash::new` always produces. -/
def Hash.valid (h : Hash) : Prop := h.digest.length = 32

instance (h : Hash) : Decidable h.valid := by unfold Hash.valid; infer_instance

/-- Errors of `graph.rs` (`GraphError`). The `IoRead` and `IoWrite`
variants carry an `io::Error` in the source which the pure model never
produces, so they are kept payload-free; `Parse` wraps a boxed inner error
in the source and here keeps that error's message. -/
inductive GraphError where
  | InvalidNodeVersion (s : List Char)
  | IoRead
  | IoWrite
  | MissingRootNode
  | MultipleRootNode
  | Parse (msg : List Char)
  | ParseCustom (msg : List Char)
  | ParseLineBlank (line : List Char)
  | ParseLineExpectedKey (expected got : List Char)
  | ParseLineKeyValueFormat (line : List Char)
  | UnhashedChild (parent child : List Char)
  | UnhashedNode (name : List Char)
  | Verify (expected computed : Hash)
deriving DecidableEq

/-- A child descriptor inside a parent's serialized representation
(`NodeEntry`). -/
structure NodeEntry where
  kind : NodeKind
  hash : Hash
  name : List Char
deriving DecidableEq

/-- An un-hashed node (`Node<T>`). -/
structure Node (T : Type) where
  kind : NodeKind
  inner : T
deriving DecidableEq

instance {T : Type} [Inhabited T] : Inhabited (Node T) := ⟨⟨.leaf, default⟩⟩

/-- The user-facing input tree (`NodeWithChildren<T, N>`); the child type
`N` of the source erases into this canonical recursive form via its
`Into` conversion, which is how the source itself consumes it. -/
inductive NodeWithChildren (T : Type) where
  | mk (kind : NodeKind) (inner : T) (children : List (NodeWithChildren T))

/-- Kind of the root node of an input tree. -/
def NodeWithChildren.kind {T : Type} : NodeWithChildren T → NodeKind
  | .mk k _ _ => k

/-- Payload of the root node of an input tree. -/
def NodeWithChildren.inner {T : Type} : NodeWithChildren T → T
  | .mk _ x _ => x

/-- Children of the root node of an input tree. -/
def NodeWithChildren.children {T : Type} : NodeWithChildren T → List (NodeWithChildren T)
  | .mk _ _ cs => cs

/-- A hashed node (`HashedNode<T>`). -/
structure HashedNode (T : Type) where
  kind : NodeKind
  hash : Hash
  inner : T
deriving DecidableEq

instance {T : Type} [Inhabited T] : Inhabited (HashedNode T) := ⟨⟨.leaf, ⟨[]⟩, default⟩⟩

/-- The payload trait operations a node payload `T` provides to the
library: `NameStr::name`, `ObjectKindStr::object_kind`,
`WriteBytes::write_bytes` (modelled as returning the emitted bytes) and
`ReadBytes::read_bytes` (modelled as consuming a prefix of the stream and
returning the rest). -/
structure PayloadOps (T : Type) where
  name : T → List Char
  objectKind : T → List Char
  writeBytes : T → List Char
  readBytes : List Char → Except GraphError (T × List Char)

/-- Writes a `KEY=VALUE` line followed by a newline
(`write_key_value_line`). -/
def writeKeyValueLine (key value : List Char) : List Char :=
  key ++ '=' :: value ++ ['\n']

/-- Writes the three fixed header lines of a node
(`write_header_bytes`): version, node kind and object kind. -/
def writeHeaderBytes (kind : NodeKind) (objectKind : List Char) : List Char :=
  writeKeyValueLine "version".data "1".data ++
    writeKeyValueLine "node_kind".data kind.asRef ++
      writeKeyValueLine "object_kind".data objectKind

/-- Serialized form of a `NodeEntry` (`WriteBytes for NodeEntry`): kind,
hash and name separated by single spaces, followed by a newline. -/
def NodeEntry.writeBytes (e : NodeEntry) : List Char :=
  e.kind.asRef ++ ' ' :: e.hash.display ++ ' ' :: e.name ++ ['\n']

/-- Byte-wise lexicographic comparison of names: this is the `Ord` used by
Rust `String`, which compares UTF-8 bytes (code-point order and UTF-8 byte
order agree lexicographically). -/
def bytesLe : List Char → List Char → Bool
  | [], _ => true
  | _ :: _, [] => false
  | a :: xs, b :: ys =>
    if a.toNat < b.toNat then true
    else if b.toNat < a.toNat then false
    else bytesLe xs ys

/-- Ordering relation on entries used when serializing a node: byte-wise
lexicographic on the entry name. -/
def entryLe (a b : NodeEntry) : Prop := bytesLe a.name b.name = true

instance : DecidableRel entryLe := fun a b => by unfold entryLe; infer_instance

/-- Stable sort of entries by name: the source uses the standard library's
stable `sort_by_key`; `List.insertionSort` is stable in the same sense
(elements with equal keys keep their input order). -/
def sortEntries (es : List NodeEntry) : List NodeEntry :=
  List.insertionSort entryLe es

/-- The trailing block a node's serialization carries for its entries:
nothing when there are none, otherwise a blank separator followed by the
entry lines sorted by name. -/
def entryBlock (entries : List NodeEntry) : List Char :=
  if entries.isEmpty then []
  else '\n' :: ((sortEntries entries).map NodeEntry.writeBytes).flatten

/-- Canonical serialization of a node with its child entries
(`NodeWithEntriesRef::write_bytes`): the header lines, a blank separator,
the payload bytes, and — exactly when the entry list is non-empty — a
further blank separator followed by the entry lines sorted by name. -/
def nodeWriteBytes {T : Type} (P : PayloadOps T) (kind : NodeKind) (inner : T)
    (entries : List NodeEntry) : List Char :=
  writeHeaderBytes kind (P.objectKind inner) ++
    '\n' :: P.writeBytes inner ++ entryBlock entries

/-- Reads one line from the stream the way `BufRead::read_line` does:
everything up to and including the first newline, or the whole stream if it
contains none. Returns the line and the remaining stream. -/
def readLine : List Char → List Char × List Char
  | [] => ([], [])
  | c :: cs =>
    if c = '\n' then ([c], cs)
    else
      match readLine cs with
      | (l, r) => (c :: l, r)

/-- Removes trailing whitespace (Rust `str::trim_end`). -/
def trimEnd (l : List Char) : List Char :=
  (l.reverse.dropWhile Char.isWhitespace).reverse

/-- Splits a list at the first occurrence of the given character
(`str::split_once`), returning the parts before and after it. -/
def splitFirst (ch : Char) : List Char → Option (List Char × List Char)
  | [] => none
  | c :: cs =>
    if c = ch then some ([], cs)
    else (splitFirst ch cs).map (fun p => (c :: p.1, p.2))

/-- Reads a `KEY=VALUE` line (`read_key_value_line`): reads one line, trims
trailing whitespace, splits at the first equals sign, checks the key and
returns the value together with the remaining stream. -/
def readKeyValueLine (key : List Char) (s : List Char) :
    Except GraphError (List Char × List Char) :=
  match readLine s with
  | (line, rest) =>
    match splitFirst '=' (trimEnd line) with
    | none => .error (.ParseLineKeyValueFormat line)
    | some (lineKey, lineValue) =>
      if lineKey = key then .ok (lineValue, rest)
      else .error (.ParseLineExpectedKey key lineKey)

/-- Reads a blank line (`read_empty_line`): reads one line and requires it
to be empty after trimming trailing whitespace. -/
def readEmptyLine (s : List Char) : Except GraphError (List Char) :=
  match readLine s with
  | (line, rest) =>
    if trimEnd line = [] then .ok rest else .error (.ParseLineBlank line)

/-- Un-reverses an accumulated line, stripping a carriage return that sat
directly before the newline (`BufRead::lines` strips CRLF). -/
def stripLine (cur : List Char) : List Char :=
  match cur with
  | [] => []
  | d :: cur2 => if d = '\r' then cur2.reverse else (d :: cur2).reverse

/-- Accumulator loop for `linesOf`; the current line is accumulated in
reverse. -/
def linesAux : List Char → List Char → List (List Char)
  | cur, [] => if cur.isEmpty then [] else [cur.reverse]
  | cur, c :: cs =>
    if c = '\n' then stripLine cur :: linesAux [] cs
    else linesAux (c :: cur) cs

/-- Splits a stream into lines the way `BufRead::lines` does: each
newline terminates a line and is stripped (together with a carriage return
directly before it); a final fragment without a newline is its own line;
the empty stream yields no lines. -/
def linesOf (s : List Char) : List (List Char) := linesAux [] s

/-- Splits a list at its last space character, returning the parts before
and after it. -/
def splitLastSpace (l : List Char) : Option (List Char × List Char) :=
  match splitFirst ' ' l.reverse with
  | none => none
  | some (a, b) => some (b.reverse, a.reverse)

/-- Models `line.rsplitn(3, CHAR_SPACE).collect::<Vec<_>>()`: the fragments in
the order the reverse-splitting iterator yields them — right-most fragment
first, at most three fragments, the last one being the unsplit
remainder. -/
def rsplitn3 (l : List Char) : List (List Char) :=
  match splitLastSpace l with
  | none => [l]
  | some (pre, post) =>
    match splitLastSpace pre with
    | none => [post, pre]
    | some (pre2, mid) => [post, mid, pre2]

/-- Body of the per-line loop of `read_node_entry_lines`: reverse-splits
the line on spaces into at most three fragments, then pops the kind, the
hash and the name off the end of the fragment vector in that order. -/
def parseEntryLine (line : List Char) : Except GraphError NodeEntry :=
  let parts := rsplitn3 line
  match parts.getLast? with
  | none => .error (.ParseCustom "missing kind field in entry line".data)
  | some kindStr =>
    let parts1 := parts.dropLast
    match NodeKind.fromStr kindStr with
    | none => .error (.Parse "Matching variant not found".data)
    | some kind =>
      match parts1.getLast? with
      | none => .error (.ParseCustom "missing hash field in entry line".data)
      | some hashStr =>
        let parts2 := parts1.dropLast
        match Hash.fromStr hashStr with
        | none => .error (.Parse "invalid hash string".data)
        | some hash =>
          match parts2.getLast? with
          | none => .error (.ParseCustom "missing name field in entry line".data)
          | some nameStr => .ok ⟨kind, hash, nameStr⟩

/-- Folds `parseEntryLine` over a list of lines, stopping at the first
error. -/
def readEntryLinesAux : List (List Char) → Except GraphError (List NodeEntry)
  | [] => .ok []
  | l :: ls =>
    match parseEntryLine l with
    | .error e => .error e
    | .ok e =>
      match readEntryLinesAux ls with
      | .error e2 => .error e2
      | .ok es => .ok (e :: es)

/-- Reads entry lines until the end of the stream
(`read_node_entry_lines`). -/
def readNodeEntryLines (s : List Char) : Except GraphError (List NodeEntry) :=
  readEntryLinesAux (linesOf s)

/-- An un-hashed node together with its child entries
(`NodeWithEntries<T>`). -/
structure NodeWithEntries (T : Type) where
  kind : NodeKind
  inner : T
  entries : List NodeEntry
deriving DecidableEq

/-- Deserialization of a node with entries
(`ReadBytes for NodeWithEntries<T>`): header lines with version and object
kind checks, a blank line, the payload, and — for a tree node — a further
blank line followed by entry lines until the end of the stream. Returns
the node and the unconsumed rest of the stream. -/
def NodeWithEntries.readBytes {T : Type} (P : PayloadOps T) (s : List Char) :
    Except GraphError (NodeWithEntries T × List Char) :=
  match readKeyValueLine "version".data s with
  | .error e => .error e
  | .ok (versionStr, s1) =>
    if versionStr ≠ "1".data then .error (.InvalidNodeVersion versionStr)
    else
      match readKeyValueLine "node_kind".data s1 with
      | .error e => .error e
      | .ok (kindStr, s2) =>
        match NodeKind.fromStr kindStr with
        | none => .error (.Parse "Matching variant not found".data)
        | some kind =>
          match readKeyValueLine "object_kind".data s2 with
          | .error e => .error e
          | .ok (objectKindStr, s3) =>
            if objectKindStr ≠ "prop".data then
              .error (.ParseCustom "expected object kind to be prop".data)
            else
              match readEmptyLine s3 with
              | .error e => .error e
              | .ok s4 =>
                match P.readBytes s4 with
                | .error e => .error e
                | .ok (inner, s5) =>
                  match kind with
                  | .leaf => .ok (⟨.leaf, inner, []⟩, s5)
                  | .tree =>
                    match readEmptyLine s5 with
                    | .error e => .error e
                    | .ok s6 =>
                      match readNodeEntryLines s6 with
                      | .error e => .error e
                      | .ok entries => .ok (⟨.tree, inner, entries⟩, [])

/-- A hashed node together with its child entries
(`HashedNodeWithEntries<T>`). -/
structure HashedNodeWithEntries (T : Type) where
  kind : NodeKind
  hash : Hash
  inner : T
  entries : List NodeEntry
deriving DecidableEq

/-- Serialized bytes of a hashed node with entries
(`WriteBytes for HashedNodeWithEntries<T>` via `as_node_with_entries_ref`). -/
def HashedNodeWithEntries.toBytes {T : Type} (P : PayloadOps T)
    (n : HashedNodeWithEntries T) : List Char :=
  nodeWriteBytes P n.kind n.inner n.entries

/-- Hash verification (`VerifyHash::verify_hash`): recompute the hash of
the serialized bytes and compare with the stored hash. -/
def HashedNodeWithEntries.verifyHash {T : Type} (P : PayloadOps T)
    (n : HashedNodeWithEntries T) : Except GraphError Unit :=
  let input := n.toBytes P
  let computed := Hash.new input
  if n.hash = computed then .ok () else .error (.Verify n.hash computed)

/-- A directed graph in insertion order, modelling `petgraph::Graph`:
nodes are indexed by insertion position and edges are recorded in
insertion order as source-target index pairs. -/
structure Graph (α : Type) where
  nodes : List α
  edges : List (Nat × Nat)
deriving DecidableEq

/-- The empty graph (`Graph::new`). -/
def Graph.empty {α : Type} : Graph α := ⟨[], []⟩

/-- `Graph::add_node`: appends a node and returns its index. -/
def Graph.addNode {α : Type} (g : Graph α) (a : α) : Graph α × Nat :=
  (⟨g.nodes ++ [a], g.edges⟩, g.nodes.length)

/-- `Graph::add_edge`: appends a directed edge. -/
def Graph.addEdge {α : Type} (g : Graph α) (src tgt : Nat) : Graph α :=
  ⟨g.nodes, g.edges ++ [(src, tgt)]⟩

/-- `graph.neighbors_directed(i, Outgoing)`: petgraph stores the out-edges
of a node as a linked list in reverse insertion order, so iteration yields
the out-neighbors most recently added first. -/
def Graph.neighborsOut {α : Type} (g : Graph α) (i : Nat) : List Nat :=
  ((g.edges.filter (fun e => e.1 = i)).map (fun e => e.2)).reverse

/-- Number of outgoing edges of a node. -/
def Graph.outDegree {α : Type} (g : Graph α) (i : Nat) : Nat :=
  (g.edges.filter (fun e => e.1 = i)).length

/-- Node payload at an index. Petgraph's indexing panics on an invalid
index; that never happens in the code modelled here (every index used is
proved to be in range), so an arbitrary default stands in for the
unreachable branch. -/
def Graph.nodeAt {α : Type} [Inhabited α] (g : Graph α) (i : Nat) : α :=
  g.nodes.getD i default

mutual

/-- Number of nodes of an input tree. -/
def NodeWithChildren.size {T : Type} : NodeWithChildren T → Nat
  | .mk _ _ cs => 1 + NodeWithChildren.sizeL cs

/-- Total number of nodes of a list of input trees. -/
def NodeWithChildren.sizeL {T : Type} : List (NodeWithChildren T) → Nat
  | [] => 0
  | c :: cs => NodeWithChildren.size c + NodeWithChildren.sizeL cs

end

/-- The stack loop of `HashingTree::create_from_root`. The stack holds
pairs of a pending subtree and the index of its already-inserted parent
(none for the root); the head of the list is the top of the stack, and a
node's children are pushed in reverse so they are popped in input order.
The `fuel` argument bounds the number of loop iterations — the loop runs
exactly once per tree node, callers pass enough fuel, and sufficiency is
proved below; `none` means fuel ran out. -/
def createLoop {T : Type} :
    Nat → List (NodeWithChildren T × Option Nat) → Graph (Node T) → Option Nat →
    Option (Except GraphError (Graph (Node T) × Option Nat))
  | 0, _, _, _ => none
  | _ + 1, [], g, rootIdx => some (.ok (g, rootIdx))
  | fuel + 1, (nwc, parentIdx) :: rest, g, rootIdx =>
    match nwc with
    | .mk kind inner children =>
      match g.addNode ⟨kind, inner⟩ with
      | (g1, nodeIdx) =>
        match parentIdx with
        | some p =>
          createLoop fuel (children.map (fun c => (c, some nodeIdx)) ++ rest)
            (g1.addEdge p nodeIdx) rootIdx
        | none =>
          match rootIdx with
          | none =>
            createLoop fuel (children.map (fun c => (c, some nodeIdx)) ++ rest)
              g1 (some nodeIdx)
          | some _ => some (.error .MultipleRootNode)

/-- `HashingTree::create_from_root`: runs the stack loop from a single
root item and then requires that a root index was recorded. -/
def HashingTree.createFromRoot {T : Type} (t : NodeWithChildren T) :
    Option (Except GraphError (Graph (Node T) × Nat)) :=
  match createLoop (t.size + 1) [(t, none)] Graph.empty none with
  | none => none
  | some (.error e) => some (.error e)
  | some (.ok (g, some r)) => some (.ok (g, r))
  | some (.ok (_, none)) => some (.error .MissingRootNode)

/-- Petgraph's `DfsPostOrder::next`, unrolled into a fuel-bounded loop
producing the whole visit sequence: the node on top of the stack is
discovered on first sight (its not-yet-discovered out-neighbors are pushed
above it, in iteration order); when seen again it is popped, and emitted if
not already finished. Fuel exhaustion truncates the sequence; only fuel
proved sufficient is used below. -/
def dfspoRun {α : Type} (g : Graph α) :
    Nat → List Nat → List Nat → List Nat → List Nat
  | 0, _, _, _ => []
  | _ + 1, [], _, _ => []
  | fuel + 1, nx :: stack, dis, fin =>
    if nx ∈ dis then
      if nx ∈ fin then dfspoRun g fuel stack dis fin
      else nx :: dfspoRun g fuel stack dis (nx :: fin)
    else
      let dis1 := nx :: dis
      dfspoRun g fuel
        (((g.neighborsOut nx).filter (fun s => ¬ s ∈ dis1)).reverse ++ nx :: stack)
        dis1 fin

/-- The depth-first post-order visit sequence from a root
(`DfsPostOrder::new` followed by draining `next`). Two iterations per
node plus a final check always suffice on the tree-shaped graphs built
here, which the development proves. -/
def dfsPostOrder {α : Type} (g : Graph α) (root : Nat) : List Nat :=
  dfspoRun g (2 * g.nodes.length + 1) [root] [] []

/-- The child-entry loop inside `compute_hashes`: for each out-neighbor of
the node being hashed, look up its already-computed hash — failing with
`UnhashedChild` if it is absent — and record an entry with the child's
kind, hash and name. -/
def collectEntries {T : Type} [Inhabited T] (P : PayloadOps T) (g : Graph (Node T))
    (hashes : List (Nat × Hash)) (parentName : List Char) :
    List Nat → Except GraphError (List NodeEntry)
  | [] => .ok []
  | childIdx :: rest =>
    let childNode := g.nodeAt childIdx
    match hashes.lookup childIdx with
    | none => .error (.UnhashedChild parentName (P.name childNode.inner))
    | some childHash =>
      match collectEntries P g hashes parentName rest with
      | .error e => .error e
      | .ok es => .ok (⟨childNode.kind, childHash, P.name childNode.inner⟩ :: es)

/-- The node loop of `compute_hashes`: visit the nodes in the given order
(the DFS post-order), build the child entries, serialize the node and
record its hash. The hash map is modelled as an association list in which
insertion prepends and lookup finds the most recent binding, matching
`HashMap` insert-overwrite semantics. -/
def computeHashesLoop {T : Type} [Inhabited T] (P : PayloadOps T) (g : Graph (Node T)) :
    List Nat → List (Nat × Hash) → Except GraphError (List (Nat × Hash))
  | [], hashes => .ok hashes
  | nodeIdx :: order, hashes =>
    let node := g.nodeAt nodeIdx
    match collectEntries P g hashes (P.name node.inner) (g.neighborsOut nodeIdx) with
    | .error e => .error e
    | .ok entries =>
      let computed := Hash.new (nodeWriteBytes P node.kind node.inner entries)
      computeHashesLoop P g order ((nodeIdx, computed) :: hashes)

/-- `HashingTree::compute_hashes`: hash every node reachable from the root
in depth-first post-order. -/
def computeHashes {T : Type} [Inhabited T] (P : PayloadOps T) (g : Graph (Node T))
    (rootIdx : Nat) : Except GraphError (List (Nat × Hash)) :=
  computeHashesLoop P g (dfsPostOrder g rootIdx) []

/-- The fully hashed output tree (`ObjectTree<T>`). -/
structure ObjectTree (T : Type) where
  graph : Graph (HashedNode T)
  rootIdx : Nat
deriving DecidableEq

/-- A stack entry of `create_hashed_tree` (`StackEntry` in the source):
the hashed node to insert, the index of the corresponding node in the
un-hashed graph, and the parent index in the new graph. -/
structure HStackEntry (T : Type) where
  hashedNode : HashedNode T
  otherIdx : Nat
  parentIdx : Option Nat
deriving DecidableEq

/-- The child loop inside `create_hashed_tree`: for each out-neighbor of
the corresponding un-hashed node, look up its hash — failing with
`UnhashedNode` if absent — and build the stack entry to push. The
returned list is in iteration order; pushing it sequentially leaves it
reversed on the stack top. -/
def hashedChildren {T : Type} [Inhabited T] (P : PayloadOps T) (other : Graph (Node T))
    (hashes : List (Nat × Hash)) (parentIdx : Nat) :
    List Nat → Except GraphError (List (HStackEntry T))
  | [] => .ok []
  | childIdx :: rest =>
    let otherNode := other.nodeAt childIdx
    match hashes.lookup childIdx with
    | none => .error (.UnhashedNode (P.name otherNode.inner))
    | some h =>
      match hashedChildren P other hashes parentIdx rest with
      | .error e => .error e
      | .ok es => .ok (⟨⟨otherNode.kind, h, otherNode.inner⟩, childIdx, some parentIdx⟩ :: es)

/-- The stack loop of `create_hashed_tree`: pops an entry, inserts its
hashed node, records the edge from its parent (or the root index), and
pushes the hashed children. Fuel as in `createLoop`. -/
def createHashedLoop {T : Type} [Inhabited T] (P : PayloadOps T) (other : Graph (Node T))
    (hashes : List (Nat × Hash)) :
    Nat → List (HStackEntry T) → Graph (HashedNode T) → Option Nat →
    Option (Except GraphError (Graph (HashedNode T) × Option Nat))
  | 0, _, _, _ => none
  | _ + 1, [], g, rootIdx => some (.ok (g, rootIdx))
  | fuel + 1, entry :: rest, g, rootIdx =>
    match g.addNode entry.hashedNode with
    | (g1, nodeIdx) =>
      match entry.parentIdx with
      | some p =>
        match hashedChildren P other hashes nodeIdx (other.neighborsOut entry.otherIdx) with
        | .error e => some (.error e)
        | .ok items =>
          createHashedLoop P other hashes fuel (items.reverse ++ rest)
            (g1.addEdge p nodeIdx) rootIdx
      | none =>
        match rootIdx with
        | some _ => some (.error .MultipleRootNode)
        | none =>
          match hashedChildren P other hashes nodeIdx (other.neighborsOut entry.otherIdx) with
          | .error e => some (.error e)
          | .ok items =>
            createHashedLoop P other hashes fuel (items.reverse ++ rest)
              g1 (some nodeIdx)

/-- `HashingTree::create_hashed_tree`: look up the root hash — failing
with `UnhashedNode` when absent — then rebuild the graph over hashed nodes
with a second stack traversal, requiring a recorded root at the end. -/
def createHashedTree {T : Type} [Inhabited T] (P : PayloadOps T) (other : Graph (Node T))
    (hashes : List (Nat × Hash)) (otherRootIdx : Nat) :
    Option (Except GraphError (ObjectTree T)) :=
  let otherRootNode := other.nodeAt otherRootIdx
  match hashes.lookup otherRootIdx with
  | none => some (.error (.UnhashedNode (P.name otherRootNode.inner)))
  | some rootHash =>
    match createHashedLoop P other hashes (other.nodes.length + 1)
        [⟨⟨otherRootNode.kind, rootHash, otherRootNode.inner⟩, otherRootIdx, none⟩]
        Graph.empty none with
    | none => none
    | some (.error e) => some (.error e)
    | some (.ok (g, some r)) => some (.ok ⟨g, r⟩)
    | some (.ok (_, none)) => some (.error .MissingRootNode)

/-- `HashingTree::hash_tree`: compute all hashes, then emit the hashed
tree. -/
def hashTree {T : Type} [Inhabited T] (P : PayloadOps T) (g : Graph (Node T))
    (rootIdx : Nat) : Option (Except GraphError (ObjectTree T)) :=
  match computeHashes P g rootIdx with
  | .error e => some (.error e)
  | .ok hashes => createHashedTree P g hashes rootIdx

/-- `ObjectTree::create_from_root`: build the un-hashed graph, then hash
it bottom-up and emit the hashed tree. -/
def ObjectTree.createFromRoot {T : Type} [Inhabited T] (P : PayloadOps T)
    (t : NodeWithChildren T) : Option (Except GraphError (ObjectTree T)) :=
  match HashingTree.createFromRoot t with
  | none => none
  | some (.error e) => some (.error e)
  | some (.ok (g, rootIdx)) => hashTree P g rootIdx

mutual

/-- The subtrees of an input tree in depth-first pre-order: the order in
which `createLoop` pops and inserts nodes, so the pre-order position of a
subtree is the graph index of its root node. -/
def flattenPre {T : Type} : NodeWithChildren T → List (NodeWithChildren T)
  | .mk k x cs => .mk k x cs :: flattenPreL cs

/-- Pre-order subtree list of a forest. -/
def flattenPreL {T : Type} : List (NodeWithChildren T) → List (NodeWithChildren T)
  | [] => []
  | c :: cs => flattenPre c ++ flattenPreL cs

end

/-- The graph node stored for the root of a subtree. -/
def NodeWithChildren.toNode {T : Type} (t : NodeWithChildren T) : Node T :=
  ⟨t.kind, t.inner⟩

mutual

/-- Edges of the graph built from a subtree whose root sits at index `b`,
in insertion order: the edge into a node is inserted when that node is
popped, so edges are ordered by pre-order of their target. -/
def edgesFrom {T : Type} (b : Nat) : NodeWithChildren T → List (Nat × Nat)
  | .mk _ _ cs => edgesL b (b + 1) cs

/-- Edges of a forest of siblings whose parent sits at index `p` and whose
first member's root sits at index `nb`. -/
def edgesL {T : Type} (p nb : Nat) : List (NodeWithChildren T) → List (Nat × Nat)
  | [] => []
  | c :: cs => (p, nb) :: (edgesFrom nb c ++ edgesL p (nb + c.size) cs)

end

/-- The un-hashed graph that `HashingTree::create_from_root` builds from
an input tree. -/
def graphOfTree {T : Type} (t : NodeWithChildren T) : Graph (Node T) :=
  ⟨(flattenPre t).map NodeWithChildren.toNode, edgesFrom 0 t⟩

mutual

/-- Depth-first post-order of the node indices of a subtree rooted at
index `b`: all children in input order, then the node itself. -/
def postIdx {T : Type} (b : Nat) : NodeWithChildren T → List Nat
  | .mk _ _ cs => postIdxL (b + 1) cs ++ [b]

/-- Post-order node indices of a forest of siblings whose first member's
root sits at index `nb`. -/
def postIdxL {T : Type} (nb : Nat) : List (NodeWithChildren T) → List Nat
  | [] => []
  | c :: cs => postIdx nb c ++ postIdxL (nb + c.size) cs

end

/-- Graph indices of the roots of a forest of siblings whose first member
sits at index `nb`. -/
def childStarts {T : Type} (nb : Nat) : List (NodeWithChildren T) → List Nat
  | [] => []
  | c :: cs => nb :: childStarts (nb + c.size) cs

mutual

/-- The hash that `compute_hashes` assigns to a subtree: the digest of the
canonical serialization of its root together with its child entries. -/
def hashOfTree {T : Type} (P : PayloadOps T) : NodeWithChildren T → Hash
  | .mk k x cs => Hash.new (nodeWriteBytes P k x (entriesRevOf P cs))

/-- The entry list `compute_hashes` collects for a node's children: the
out-neighbors are iterated most-recently-added-edge first, i.e. in
reverse input order. -/
def entriesRevOf {T : Type} (P : PayloadOps T) : List (NodeWithChildren T) → List NodeEntry
  | [] => []
  | c :: cs => entriesRevOf P cs ++ [⟨c.kind, hashOfTree P c, P.name c.inner⟩]

end

mutual

/-- The association list `compute_hashes` has built once the post-order
visit of a subtree rooted at index `b` is complete, above whatever was
there before: each visit prepends its binding. -/
def hashAssoc {T : Type} (P : PayloadOps T) (b : Nat) :
    NodeWithChildren T → List (Nat × Hash)
  | .mk k x cs => (b, hashOfTree P (.mk k x cs)) :: hashAssocL P (b + 1) cs

/-- Bindings accumulated by visiting a forest of siblings in post-order;
later siblings end up in front. -/
def hashAssocL {T : Type} (P : PayloadOps T) (nb : Nat) :
    List (NodeWithChildren T) → List (Nat × Hash)
  | [] => []
  | c :: cs => hashAssocL P (nb + c.size) cs ++ hashAssoc P nb c

end

/-- The hashed node emitted for a subtree. -/
def hashedNodeOf {T : Type} (P : PayloadOps T) (t : NodeWithChildren T) : HashedNode T :=
  ⟨t.kind, hashOfTree P t, t.inner⟩

/-- The hashed graph that `ObjectTree::create_from_root` finally returns:
same shape as the un-hashed graph, nodes carrying their computed hashes. -/
def hashedGraphOfTree {T : Type} (P : PayloadOps T) (t : NodeWithChildren T) :
    Graph (HashedNode T) :=
  ⟨(flattenPre t).map (hashedNodeOf P), edgesFrom 0 t⟩

/-- A minimal concrete payload used to instantiate the generic
development in witnesses: a name and a value, object kind `prop`,
serialized as a name line followed by a payload line. -/
structure PropPayload where
  pname : List Char
  pvalue : List Char
deriving DecidableEq

instance : Inhabited PropPayload := ⟨⟨[], []⟩⟩

/-- Payload operations for `PropPayload`. -/
def propOps : PayloadOps PropPayload where
  name p := p.pname
  objectKind _ := "prop".data
  writeBytes p :=
    writeKeyValueLine "name".data p.pname ++ writeKeyValueLine "payload".data p.pvalue
  readBytes s :=
    match readKeyValueLine "name".data s with
    | .error e => .error e
    | .ok (n, s1) =>
      match readKeyValueLine "payload".data s1 with
      | .error e => .error e
      | .ok (v, s2) => .ok (⟨n, v⟩, s2)

/-- The graph obtained from `g` by appending the nodes and edges that the
`create_from_root` loop inserts while draining one subtree pushed with
parent index `p`. -/
def appendSubtree {T : Type} (g : Graph (Node T)) (p : Nat) (t : NodeWithChildren T) :
    Graph (Node T) :=
  ⟨g.nodes ++ (flattenPre t).map NodeWithChildren.toNode,
   (g.edges ++ [(p, g.nodes.length)]) ++ edgesFrom g.nodes.length t⟩

/-- The graph obtained from `g` by draining a whole forest of siblings
pushed with parent index `p`. -/
def appendForest {T : Type} (g : Graph (Node T)) (p : Nat)
    (cs : List (NodeWithChildren T)) : Graph (Node T) :=
  ⟨g.nodes ++ (flattenPreL cs).map NodeWithChildren.toNode,
   g.edges ++ edgesL p g.nodes.length cs⟩

mutual

/-- Depth-first pre-order of the node indices of a subtree rooted at
index `b`: this is the order in which `DfsPostOrder` discovers them. -/
def preIdxs {T : Type} (b : Nat) : NodeWithChildren T → List Nat
  | .mk _ _ cs => b :: preIdxsL (b + 1) cs

/-- Pre-order node indices of a forest of siblings whose first member's
root sits at index `nb`. -/
def preIdxsL {T : Type} (nb : Nat) : List (NodeWithChildren T) → List Nat
  | [] => []
  | c :: cs => preIdxs nb c ++ preIdxsL (nb + c.size) cs

end

/-- Stack entries that `create_hashed_tree` pushes for a forest of
children whose first member's un-hashed index is `nb` and whose parent was
inserted at index `pnew` in the new graph, listed in pop order. -/
def hItems {T : Type} (P : PayloadOps T) (pnew : Nat) :
    Nat → List (NodeWithChildren T) → List (HStackEntry T)
  | _, [] => []
  | nb, c :: cs => ⟨hashedNodeOf P c, nb, some pnew⟩ :: hItems P pnew (nb + c.size) cs

/-- The graph obtained from `g` by appending the hashed nodes and edges
that the `create_hashed_tree` loop inserts while draining one subtree
pushed with parent index `p`. -/
def happendSubtree {T : Type} (P : PayloadOps T) (g : Graph (HashedNode T)) (p : Nat)
    (t : NodeWithChildren T) : Graph (HashedNode T) :=
  ⟨g.nodes ++ (flattenPre t).map (hashedNodeOf P),
   (g.edges ++ [(p, g.nodes.length)]) ++ edgesFrom g.nodes.length t⟩

/-- The graph obtained from `g` by draining a whole forest of siblings in
the `create_hashed_tree` loop. -/
def happendForest {T : Type} (P : PayloadOps T) (g : Graph (HashedNode T)) (p : Nat)
    (cs : List (NodeWithChildren T)) : Graph (HashedNode T) :=
  ⟨g.nodes ++ (flattenPreL cs).map (hashedNodeOf P),
   g.edges ++ edgesL p g.nodes.length cs⟩

/-- The layout facts the traversals rely on, for a subtree sitting at
base index `β` of graph `g`: the node stored at each index of the subtree
is the image of the corresponding subtree root under `nodeOf`, and its
out-neighbors are its children's bases in reverse input order. -/
def GoodAt {α T : Type} (g : Graph α) (nodeOf : NodeWithChildren T → α) (β : Nat)
    (s : NodeWithChildren T) : Prop :=
  ∀ j s', (flattenPre s).get? j = some s' →
    g.nodes.get? (β + j) = some (nodeOf s') ∧
    g.neighborsOut (β + j) = (childStarts (β + j + 1) s'.children).reverse

/-- Forest version of `GoodAt`. -/
def GoodAtL {α T : Type} (g : Graph α) (nodeOf : NodeWithChildren T → α) (nb : Nat)
    (cs : List (NodeWithChildren T)) : Prop :=
  ∀ j s', (flattenPreL cs).get? j = some s' →
    g.nodes.get? (nb + j) = some (nodeOf s') ∧
    g.neighborsOut (nb + j) = (childStarts (nb + j + 1) s'.children).reverse

/-- The entry `compute_hashes` records for a direct child. -/
def childEntryOf {T : Type} (P : PayloadOps T) (c : NodeWithChildren T) : NodeEntry :=
  ⟨c.kind, hashOfTree P c, P.name c.inner⟩

/-- The child entries of a node of a hashed graph, assembled the way
consumers of the library do it — one `NodeEntry` per out-neighbor, from
that child's kind, stored hash and name (`From<HashedNode<T>> for
NodeEntry`). -/
def childEntriesAt {T : Type} [Inhabited T] (P : PayloadOps T)
    (g : Graph (HashedNode T)) (i : Nat) : List NodeEntry :=
  (g.neighborsOut i).map (fun j => ⟨(g.nodeAt j).kind, (g.nodeAt j).hash, P.name (g.nodeAt j).inner⟩)

/-- The hashed-node-with-entries view of a node of an object tree, as
used when re-verifying hashes. -/
def nodeViewAt {T : Type} [Inhabited T] (P : PayloadOps T) (ot : ObjectTree T)
    (i : Nat) : HashedNodeWithEntries T :=
  ⟨(ot.graph.nodeAt i).kind, (ot.graph.nodeAt i).hash, (ot.graph.nodeAt i).inner,
   childEntriesAt P ot.graph i⟩

/-- Stored hash of the root node of an object tree. -/
def ObjectTree.rootHash {T : Type} [Inhabited T] (ot : ObjectTree T) : Hash :=
  (ot.graph.nodeAt ot.rootIdx).hash

/-- The serialized bytes `compute_hashes` feeds to `Hash::new` for the
root node of an input tree: its canonical serialization from the entries
collected over its direct children. -/
def rootBytesOf {T : Type} (P : PayloadOps T) (t : NodeWithChildren T) : List Char :=
  nodeWriteBytes P t.kind t.inner (entriesRevOf P t.children)

mutual

/-- Input trees in which `Leaf` nodes carry no children, matching the
documented meaning of `NodeKind::Leaf`. -/
def leavesChildless {T : Type} : NodeWithChildren T → Bool
  | .mk k _ cs => (decide (k = .tree) || cs.isEmpty) && leavesChildlessL cs

/-- Forest version of `leavesChildless`. -/
def leavesChildlessL {T : Type} : List (NodeWithChildren T) → Bool
  | [] => true
  | c :: cs => leavesChildless c && leavesChildlessL cs

end

mutual

/-- Input trees in which the names of the children of every node are
pairwise distinct. -/
def distinctNames {T : Type} (P : PayloadOps T) : NodeWithChildren T → Bool
  | .mk _ _ cs =>
    decide ((cs.map (fun c => P.name c.inner)).Nodup) && distinctNamesL P cs

/-- Forest version of `distinctNames`. -/
def distinctNamesL {T : Type} (P : PayloadOps T) : List (NodeWithChildren T) → Bool
  | [] => true
  | c :: cs => distinctNames P c && distinctNamesL P cs

end

/-- Trees related by re-ordering the children list at any selection of
nodes: reflexivity, a permutation of the children at the root, replacing
one child by a related tree, and composition. -/
inductive PermTree {T : Type} : NodeWithChildren T → NodeWithChildren T → Prop where
  | refl (t : NodeWithChildren T) : PermTree t t
  | perm (k : NodeKind) (x : T) (cs cs' : List (NodeWithChildren T)) :
      cs.Perm cs' → PermTree (.mk k x cs) (.mk k x cs')
  | congr (k : NodeKind) (x : T) (pre post : List (NodeWithChildren T))
      (c c' : NodeWithChildren T) :
      PermTree c c' →
      PermTree (.mk k x (pre ++ c :: post)) (.mk k x (pre ++ c' :: post))
  | trans (a b c : NodeWithChildren T) : PermTree a b → PermTree b c → PermTree a c

/-- Example leaf payload used in witnesses (scenario S1 of the spec). -/
def alphaPayload : PropPayload := ⟨"alpha".data, "a".data⟩

/-- Example tree with two distinctly named children supplied out of name
order (scenario S2 of the spec). -/
def exTreeS2 : NodeWithChildren PropPayload :=
  .mk .tree ⟨"root".data, "rv".data⟩
    [.mk .leaf ⟨"beta".data, "b".data⟩ [], .mk .leaf ⟨"alpha".data, "a".data⟩ []]

/-- The same tree with the two children supplied in the opposite order. -/
def exTreeS2swap : NodeWithChildren PropPayload :=
  .mk .tree ⟨"root".data, "rv".data⟩
    [.mk .leaf ⟨"alpha".data, "a".data⟩ [], .mk .leaf ⟨"beta".data, "b".data⟩ []]

/-- A tree with two same-named siblings carrying different payloads. -/
def exTreeDup : NodeWithChildren PropPayload :=
  .mk .tree ⟨"r".data, "rv".data⟩
    [.mk .leaf ⟨"a".data, "x".data⟩ [], .mk .leaf ⟨"a".data, "y".data⟩ []]

/-- The same two same-named siblings supplied in the opposite order. -/
def exTreeDupSwap : NodeWithChildren PropPayload :=
  .mk .tree ⟨"r".data, "rv".data⟩
    [.mk .leaf ⟨"a".data, "y".data⟩ [], .mk .leaf ⟨"a".data, "x".data⟩ []]

/-- A `Leaf` root to which the caller nevertheless attached a child. -/
def exLeafWithChild : NodeWithChildren PropPayload :=
  .mk .leaf ⟨"r".data, "rv".data⟩ [.mk .leaf ⟨"a".data, "av".data⟩ []]

/-- An example entry named `beta`. -/
def exEntryBeta : NodeEntry := ⟨.leaf, Hash.new "x".data, "beta".data⟩

/-- An example entry named `alpha`. -/
def exEntryAlpha : NodeEntry := ⟨.leaf, Hash.new "y".data, "alpha".data⟩

/-- An example entry whose name ends with a carriage return. -/
def exEntryCR : NodeEntry := ⟨.leaf, Hash.new "z".data, ['x', '\r']⟩

theorem readLine_append {l rest : List Char} (h : '\n' ∉ l) :
    readLine (l ++ '\n' :: rest) = (l ++ ['\n'], rest) := by
  induction l with
  | nil => simp [readLine]
  | cons c cs ih =>
    have hc : c ≠ '\n' := fun hc => h (hc ▸ List.mem_cons_self c cs)
    have hcs : '\n' ∉ cs := fun hm => h (List.mem_cons_of_mem c hm)
    simp [readLine, hc, ih hcs]

theorem trimEnd_append_ws {l : List Char} {c : Char} (h : c.isWhitespace = true) :
    trimEnd (l ++ [c]) = trimEnd l := by
  simp [trimEnd, List.dropWhile, h]

theorem trimEnd_append_cons {l1 l2 : List Char} {c : Char} (h : c.isWhitespace = false) :
    trimEnd (l1 ++ c :: l2) = l1 ++ c :: trimEnd l2 := by
  unfold trimEnd
  rw [show l1 ++ c :: l2 = (l1 ++ [c]) ++ l2 by simp, List.reverse_append,
    List.dropWhile_append]
  by_cases he : (List.dropWhile Char.isWhitespace l2.reverse).isEmpty = true
  · rw [if_pos he]
    simp [List.dropWhile_cons, h, List.isEmpty_iff.mp he]
  · rw [if_neg he]
    simp

theorem trimEnd_no_ws {l : List Char}
    (h : ∀ c, l.getLast? = some c → c.isWhitespace = false) : trimEnd l = l := by
  unfold trimEnd
  rcases hr : l.reverse with _ | ⟨c, cs⟩
  · simpa using congrArg List.reverse hr
  · have hlast : l.getLast? = some c := by
      rw [← List.head?_reverse, hr]; rfl
    rw [List.dropWhile_cons, h c hlast]
    simp only [Bool.false_eq_true, if_false]
    rw [← hr, List.reverse_reverse]

theorem mem_trimEnd {l : List Char} {c : Char} (h : c ∈ trimEnd l) : c ∈ l := by
  unfold trimEnd at h
  rw [List.mem_reverse] at h
  have := (List.dropWhile_sublist (l := l.reverse) Char.isWhitespace).mem h
  exact List.mem_reverse.mp this

theorem splitFirst_not_mem {ch : Char} {l : List Char} (h : ch ∉ l) :
    splitFirst ch l = none := by
  induction l with
  | nil => rfl
  | cons c cs ih =>
    have hc : c ≠ ch := fun hc => h (hc ▸ List.mem_cons_self c cs)
    have hcs : ch ∉ cs := fun hm => h (List.mem_cons_of_mem c hm)
    simp [splitFirst, hc, ih hcs]

theorem splitFirst_append {ch : Char} {l1 l2 : List Char} (h : ch ∉ l1) :
    splitFirst ch (l1 ++ ch :: l2) = some (l1, l2) := by
  induction l1 with
  | nil => simp [splitFirst]
  | cons c cs ih =>
    have hc : c ≠ ch := fun hc => h (hc ▸ List.mem_cons_self c cs)
    have hcs : ch ∉ cs := fun hm => h (List.mem_cons_of_mem c hm)
    simp [splitFirst, hc, ih hcs]

theorem splitLastSpace_append {a b : List Char} (h : ' ' ∉ b) :
    splitLastSpace (a ++ ' ' :: b) = some (a, b) := by
  have hb : ' ' ∉ b.reverse := fun hm => h (List.mem_reverse.mp hm)
  rw [splitLastSpace, show (a ++ ' ' :: b).reverse = b.reverse ++ ' ' :: a.reverse by simp,
    splitFirst_append hb]
  simp

theorem splitLastSpace_not_mem {l : List Char} (h : ' ' ∉ l) :
    splitLastSpace l = none := by
  have : ' ' ∉ l.reverse := fun hm => h (List.mem_reverse.mp hm)
  rw [splitLastSpace, splitFirst_not_mem this]

/-- Claim C7 (amended): `read_key_value_line`, applied to a line of the
form KEY=VALUE terminated by a newline, trims trailing whitespace
(including the newline) and splits on the first equals sign only: when the
parsed key equals the expected key it returns VALUE with its trailing
whitespace removed — exactly VALUE whenever VALUE does not end in
whitespace (VALUE may itself contain an equals sign); it fails with
`ParseLineKeyValueFormat` when the line contains no equals sign, and with
`ParseLineExpectedKey(expected, got)` when the parsed key differs from the
expected key. -/
theorem claim7_theorem (key value line k0 rest : List Char)
    (hk1 : '\n' ∉ key) (hk2 : '=' ∉ key) (hv : '\n' ∉ value)
    (hl1 : '\n' ∉ line) (hl2 : '=' ∉ line)
    (h01 : '\n' ∉ k0) (h02 : '=' ∉ k0) (hne : k0 ≠ key) :
    readKeyValueLine key (key ++ '=' :: value ++ '\n' :: rest) = .ok (trimEnd value, rest) ∧
    readKeyValueLine key (line ++ '\n' :: rest) =
      .error (.ParseLineKeyValueFormat (line ++ ['\n'])) ∧
    readKeyValueLine key (k0 ++ '=' :: value ++ '\n' :: rest) =
      .error (.ParseLineExpectedKey key k0) := by
  refine ⟨?_, ?_, ?_⟩
  · have hnl : '\n' ∉ key ++ '=' :: value := by
      intro hm
      rcases List.mem_append.mp hm with h | h
      · exact hk1 h
      · rcases List.mem_cons.mp h with h | h
        · exact absurd h.symm (by decide)
        · exact hv h
    have htr : trimEnd ((key ++ '=' :: value) ++ ['\n']) = key ++ '=' :: trimEnd value := by
      rw [trimEnd_append_ws (by decide), trimEnd_append_cons (by decide)]
    have hsp := @splitFirst_append '=' key (trimEnd value) hk2
    rw [show key ++ '=' :: value ++ '\n' :: rest = (key ++ '=' :: value) ++ '\n' :: rest by simp]
    simp only [readKeyValueLine, readLine_append hnl, htr, hsp]
    simp
  · have hm : '=' ∉ trimEnd (line ++ ['\n']) := by
      rw [trimEnd_append_ws (by decide)]
      exact fun hm => hl2 (mem_trimEnd hm)
    simp only [readKeyValueLine, readLine_append hl1, splitFirst_not_mem hm]
  · have hnl : '\n' ∉ k0 ++ '=' :: value := by
      intro hm
      rcases List.mem_append.mp hm with h | h
      · exact h01 h
      · rcases List.mem_cons.mp h with h | h
        · exact absurd h.symm (by decide)
        · exact hv h
    have htr : trimEnd ((k0 ++ '=' :: value) ++ ['\n']) = k0 ++ '=' :: trimEnd value := by
      rw [trimEnd_append_ws (by decide), trimEnd_append_cons (by decide)]
    have hsp := @splitFirst_append '=' k0 (trimEnd value) h02
    rw [show k0 ++ '=' :: value ++ '\n' :: rest = (k0 ++ '=' :: value) ++ '\n' :: rest by simp]
    simp only [readKeyValueLine, readLine_append hnl, htr, hsp]
    simp [hne]

/-- Witness for C7 at concrete inputs. -/
theorem claim7_witness :
    readKeyValueLine "k".data ("k".data ++ '=' :: "v".data ++ '\n' :: []) =
      .ok (trimEnd "v".data, []) ∧
    readKeyValueLine "k".data ("abc".data ++ '\n' :: []) =
      .error (.ParseLineKeyValueFormat ("abc".data ++ ['\n'])) ∧
    readKeyValueLine "k".data ("x".data ++ '=' :: "v".data ++ '\n' :: []) =
      .error (.ParseLineExpectedKey "k".data "x".data) :=
  claim7_theorem "k".data "v".data "abc".data "x".data [] (by decide) (by decide)
    (by decide) (by decide) (by decide) (by decide) (by decide) (by decide)

/-- Counterexample to C7 as stated: for the line `k=v \n` — KEY `k`,
VALUE `v ` (with a trailing space) — the reader returns `v`, not exactly
VALUE: it trims all trailing whitespace, not only the newline. -/
theorem claim7_counterexample :
    readKeyValueLine "k".data ("k".data ++ '=' :: "v ".data ++ '\n' :: []) =
      .ok ("v".data, []) ∧ "v".data ≠ "v ".data := by
  constructor
  · decide
  · decide

theorem hexDigit_mem {m : Nat} (hm : m < 16) : hexDigit m ∈ "0123456789abcdef".data := by
  have : ∀ i : Fin 16, hexDigit i.val ∈ "0123456789abcdef".data := by decide
  exact this ⟨m, hm⟩

theorem hexVal_hexDigit {m : Nat} (hm : m < 16) : hexVal (hexDigit m) = some m := by
  have : ∀ i : Fin 16, hexVal (hexDigit i.val) = some i.val := by decide
  exact this ⟨m, hm⟩

theorem mem_display_hexchar {h : Hash} {c : Char} (hc : c ∈ h.display) :
    c ∈ "0123456789abcdef".data := by
  unfold Hash.display at hc
  rcases List.mem_flatten.mp hc with ⟨l, hl, hcl⟩
  rcases List.mem_map.mp hl with ⟨b, _, rfl⟩
  have hb := b.isLt
  have h1 : b.val / 16 < 16 := Nat.div_lt_of_lt_mul (by omega)
  have h2 : b.val % 16 < 16 := Nat.mod_lt _ (by norm_num)
  rcases List.mem_cons.mp hcl with rfl | hcl2
  · exact hexDigit_mem h1
  · rcases List.mem_cons.mp hcl2 with rfl | hcl3
    · exact hexDigit_mem h2
    · exact absurd hcl3 (List.not_mem_nil c)

theorem display_no_space {h : Hash} : ' ' ∉ h.display :=
  fun hm => by have := mem_display_hexchar hm; revert this; decide

theorem display_no_newline {h : Hash} : '\n' ∉ h.display :=
  fun hm => by have := mem_display_hexchar hm; revert this; decide

theorem display_length (h : Hash) : h.display.length = 2 * h.digest.length := by
  unfold Hash.display
  induction h.digest with
  | nil => rfl
  | cons b bs ih => simp [ih]; ring

theorem hexPairsToBytes_display (l : List (Fin 256)) :
    hexPairsToBytes ((l.map
      (fun b => [hexDigit (b.val / 16), hexDigit (b.val % 16)])).flatten) = some l := by
  induction l with
  | nil => rfl
  | cons b bs ih =>
    have hb := b.isLt
    have h1 : b.val / 16 < 16 := Nat.div_lt_of_lt_mul (by omega)
    have h2 : b.val % 16 < 16 := Nat.mod_lt _ (by norm_num)
    have hfin : (Fin.ofNat (b.val / 16 * 16 + b.val % 16) : Fin 256) = b := by
      apply Fin.ext
      simp [Fin.ofNat]
      omega
    simp [hexPairsToBytes, hexVal_hexDigit h1, hexVal_hexDigit h2, ih, hfin]

theorem fromStr_display {h : Hash} (hv : h.valid) : Hash.fromStr h.display = some h := by
  unfold Hash.fromStr
  rw [display_length, hv, if_pos (by norm_num)]
  unfold Hash.display
  rw [hexPairsToBytes_display]
  rfl

theorem fromStr_asRef (k : NodeKind) : NodeKind.fromStr k.asRef = some k := by
  cases k <;> decide

theorem asRef_no_space (k : NodeKind) : ' ' ∉ k.asRef := by
  cases k <;> decide

theorem rsplitn3_entry {k : NodeKind} {h : Hash} {n : List Char} (hn : ' ' ∉ n) :
    rsplitn3 (k.asRef ++ ' ' :: h.display ++ ' ' :: n) = [n, h.display, k.asRef] := by
  rw [rsplitn3, show k.asRef ++ ' ' :: h.display ++ ' ' :: n
      = (k.asRef ++ ' ' :: h.display) ++ ' ' :: n by simp,
    splitLastSpace_append hn]
  simp only [splitLastSpace_append (display_no_space (h := h))]

theorem rsplitn3_two {k : NodeKind} {h : Hash} :
    rsplitn3 (k.asRef ++ ' ' :: h.display) = [h.display, k.asRef] := by
  simp only [rsplitn3, splitLastSpace_append (display_no_space (h := h)),
    splitLastSpace_not_mem (asRef_no_space k)]

/-- Claim C8: entry-line parsing splits each line from the right at most
twice on a space. For a line KIND HASH NAME where NAME contains no space
it yields exactly that kind, hash and name; a line containing only a valid
kind and a valid hash fails with `ParseCustom` about the missing name
field; a line whose right-split kind field does not parse as a kind, or
whose hash field does not parse as a hash, fails with a `Parse` error. -/
theorem claim8_theorem (k : NodeKind) (h : Hash) (n : List Char)
    (hval : h.valid) (hn : ' ' ∉ n) :
    parseEntryLine (k.asRef ++ ' ' :: h.display ++ ' ' :: n) = .ok ⟨k, h, n⟩ ∧
    parseEntryLine (k.asRef ++ ' ' :: h.display) =
      .error (.ParseCustom "missing name field in entry line".data) ∧
    (∀ line ks, (rsplitn3 line).getLast? = some ks → NodeKind.fromStr ks = none →
      parseEntryLine line = .error (.Parse "Matching variant not found".data)) ∧
    (∀ line ks hs kind, (rsplitn3 line).getLast? = some ks →
      NodeKind.fromStr ks = some kind →
      ((rsplitn3 line).dropLast).getLast? = some hs → Hash.fromStr hs = none →
      parseEntryLine line = .error (.Parse "invalid hash string".data)) := by
  refine ⟨?_, ?_, ?_, ?_⟩
  · simp only [parseEntryLine, rsplitn3_entry hn]
    simp [fromStr_asRef, fromStr_display hval]
  · simp only [parseEntryLine, rsplitn3_two (k := k) (h := h)]
    simp [fromStr_asRef, fromStr_display hval]
  · intro line ks hks hkind
    simp [parseEntryLine, hks, hkind]
  · intro line ks hs kind hks hkind hhs hfail
    simp [parseEntryLine, hks, hkind, hhs, hfail]

/-- Witness for C8 at concrete inputs. -/
theorem claim8_witness :
    parseEntryLine (NodeKind.leaf.asRef ++ ' ' :: (Hash.new "x".data).display
        ++ ' ' :: "beta".data) = .ok ⟨.leaf, Hash.new "x".data, "beta".data⟩ ∧
    parseEntryLine (NodeKind.leaf.asRef ++ ' ' :: (Hash.new "x".data).display) =
      .error (.ParseCustom "missing name field in entry line".data) ∧
    parseEntryLine "zz".data = .error (.Parse "Matching variant not found".data) ∧
    parseEntryLine "leaf xyz".data = .error (.Parse "invalid hash string".data) := by
  have h := claim8_theorem .leaf (Hash.new "x".data) "beta".data (by decide) (by decide)
  refine ⟨h.1, h.2.1, ?_, ?_⟩
  · exact h.2.2.1 "zz".data "zz".data (by decide) (by decide)
  · exact h.2.2.2 "leaf xyz".data "leaf".data "xyz".data .leaf (by decide) (by decide)
      (by decide) (by decide)

theorem readKeyValueLine_ok {key value rest : List Char}
    (hk1 : '\n' ∉ key) (hk2 : '=' ∉ key) (hv : '\n' ∉ value) :
    readKeyValueLine key (key ++ '=' :: value ++ '\n' :: rest) = .ok (trimEnd value, rest) := by
  have hnl : '\n' ∉ key ++ '=' :: value := by
    intro hm
    rcases List.mem_append.mp hm with h | h
    · exact hk1 h
    · rcases List.mem_cons.mp h with h | h
      · exact absurd h.symm (by decide)
      · exact hv h
  have htr : trimEnd ((key ++ '=' :: value) ++ ['\n']) = key ++ '=' :: trimEnd value := by
    rw [trimEnd_append_ws (by decide), trimEnd_append_cons (by decide)]
  have hsp := @splitFirst_append '=' key (trimEnd value) hk2
  rw [show key ++ '=' :: value ++ '\n' :: rest = (key ++ '=' :: value) ++ '\n' :: rest by simp]
  simp only [readKeyValueLine, readLine_append hnl, htr, hsp]
  simp

theorem readEmptyLine_nl {rest : List Char} : readEmptyLine ('\n' :: rest) = .ok rest := by
  have : readLine ('\n' :: rest) = (['\n'], rest) := by simp [readLine]
  simp [readEmptyLine, this, trimEnd]

theorem readEmptyLine_nil : readEmptyLine ([] : List Char) = .ok [] := by decide

theorem readNodeEntryLines_nil : readNodeEntryLines ([] : List Char) = .ok [] := by decide

theorem linesAux_split {l : List Char} (acc rest : List Char) (h1 : '\n' ∉ l) :
    linesAux acc (l ++ '\n' :: rest) = stripLine (l.reverse ++ acc) :: linesAux [] rest := by
  induction l generalizing acc with
  | nil => simp [linesAux]
  | cons c cs ih =>
    have hc : c ≠ '\n' := fun hc => h1 (hc ▸ List.mem_cons_self c cs)
    have hcs : '\n' ∉ cs := fun hm => h1 (List.mem_cons_of_mem c hm)
    rw [List.cons_append, linesAux, if_neg hc, ih (c :: acc) hcs]
    simp

theorem linesOf_cons_line {l rest : List Char} (h1 : '\n' ∉ l)
    (h2 : l.getLast? ≠ some '\r') :
    linesOf (l ++ '\n' :: rest) = l :: linesOf rest := by
  rw [linesOf, linesAux_split [] rest h1]
  rcases hr : l.reverse with _ | ⟨c, cs⟩
  · have : l = [] := by simpa using congrArg List.reverse hr
    subst this
    rfl
  · have hlast : l.getLast? = some c := by rw [← List.head?_reverse, hr]; rfl
    have hc : c ≠ '\r' := fun hcc => h2 (hcc ▸ hlast)
    rw [List.append_nil, stripLine, if_neg hc, ← hr, List.reverse_reverse]
    rfl

theorem bytesLe_total (x y : List Char) : bytesLe x y = true ∨ bytesLe y x = true := by
  induction x generalizing y with
  | nil => left; rfl
  | cons a xs ih =>
    cases y with
    | nil => right; rfl
    | cons b ys =>
      by_cases h1 : a.toNat < b.toNat
      · left; simp [bytesLe, h1]
      · by_cases h2 : b.toNat < a.toNat
        · right; simp [bytesLe, h2]
        · rcases ih ys with h | h
          · left; simp [bytesLe, h1, h2, h]
          · right; simp [bytesLe, h1, h2, h]

theorem bytesLe_trans {x y z : List Char} (hxy : bytesLe x y = true)
    (hyz : bytesLe y z = true) : bytesLe x z = true := by
  induction x generalizing y z with
  | nil => rfl
  | cons a xs ih =>
    cases y with
    | nil => exact absurd hxy (by simp [bytesLe])
    | cons b ys =>
      cases z with
      | nil => exact absurd hyz (by simp [bytesLe])
      | cons c zs =>
        simp only [bytesLe] at hxy hyz ⊢
        by_cases h1 : a.toNat < b.toNat
        · by_cases h2 : b.toNat < c.toNat
          · simp [show a.toNat < c.toNat by omega]
          · by_cases h3 : c.toNat < b.toNat
            · simp [h2, h3] at hyz
            · simp [show a.toNat < c.toNat by omega]
        · by_cases h2 : b.toNat < a.toNat
          · simp [h1, h2] at hxy
          · simp [h1, h2] at hxy
            by_cases h3 : b.toNat < c.toNat
            · simp [show a.toNat < c.toNat by omega]
            · by_cases h4 : c.toNat < b.toNat
              · simp [h3, h4] at hyz
              · simp [h3, h4] at hyz
                simp [show ¬ a.toNat < c.toNat by omega, show ¬ c.toNat < a.toNat by omega]
                exact ih hxy hyz

theorem char_toNat_inj {a b : Char} (h : a.toNat = b.toNat) : a = b := by
  simp [Char.toNat] at h
  exact Char.eq_of_val_eq (UInt32.ext (by exact_mod_cast h))

theorem bytesLe_antisymm {x y : List Char} (hxy : bytesLe x y = true)
    (hyx : bytesLe y x = true) : x = y := by
  induction x generalizing y with
  | nil =>
    cases y with
    | nil => rfl
    | cons b ys => exact absurd hyx (by simp [bytesLe])
  | cons a xs ih =>
    cases y with
    | nil => exact absurd hxy (by simp [bytesLe])
    | cons b ys =>
      simp only [bytesLe] at hxy hyx
      by_cases h1 : a.toNat < b.toNat
      · by_cases h2 : b.toNat < a.toNat
        · omega
        · simp [h1, h2] at hyx
      · by_cases h2 : b.toNat < a.toNat
        · simp [h1, h2] at hxy
        · have hab : a = b := char_toNat_inj (by omega)
          subst hab
          simp [h1, h2] at hxy hyx
          rw [ih hxy hyx]

instance : IsTotal NodeEntry entryLe :=
  ⟨fun a b => by
    unfold entryLe
    rcases bytesLe_total a.name b.name with h | h
    · exact Or.inl h
    · exact Or.inr h⟩

instance : IsTrans NodeEntry entryLe :=
  ⟨fun a b c hab hbc => bytesLe_trans hab hbc⟩

theorem sortEntries_sorted (es : List NodeEntry) : List.Sorted entryLe (sortEntries es) :=
  List.sorted_insertionSort entryLe es

theorem sortEntries_perm (es : List NodeEntry) : (sortEntries es).Perm es :=
  List.perm_insertionSort entryLe es

theorem sortEntries_of_sorted {es : List NodeEntry} (h : List.Sorted entryLe es) :
    sortEntries es = es :=
  List.Sorted.insertionSort_eq h

theorem sortEntries_idem (es : List NodeEntry) :
    sortEntries (sortEntries es) = sortEntries es :=
  sortEntries_of_sorted (sortEntries_sorted es)

theorem asRef_no_newline (k : NodeKind) : '\n' ∉ k.asRef := by
  cases k <;> decide

theorem parseEntryLine_ok {k : NodeKind} {h : Hash} {n : List Char}
    (hval : h.valid) (hn : ' ' ∉ n) :
    parseEntryLine (k.asRef ++ ' ' :: h.display ++ ' ' :: n) = .ok ⟨k, h, n⟩ := by
  simp only [parseEntryLine, rsplitn3_entry hn]
  simp [fromStr_asRef, fromStr_display hval]

theorem entryBody_no_newline {e : NodeEntry} (hn : '\n' ∉ e.name) :
    '\n' ∉ e.kind.asRef ++ ' ' :: e.hash.display ++ ' ' :: e.name := by
  intro hm
  rcases List.mem_append.mp hm with h | h
  · rcases List.mem_append.mp h with h | h
    · exact asRef_no_newline e.kind h
    · rcases List.mem_cons.mp h with h | h
      · exact absurd h.symm (by decide)
      · exact display_no_newline h
  · rcases List.mem_cons.mp h with h | h
    · exact absurd h.symm (by decide)
    · exact hn h

theorem entryBody_last_not_cr {e : NodeEntry} (hcr : e.name.getLast? ≠ some '\r') :
    (e.kind.asRef ++ ' ' :: e.hash.display ++ ' ' :: e.name).getLast? ≠ some '\r' := by
  rw [List.getLast?_append]
  cases hn : e.name with
  | nil => simp
  | cons a as =>
    rw [List.getLast?_cons_cons]
    rw [hn] at hcr
    simp [hcr]

theorem readNodeEntryLines_concat (es : List NodeEntry)
    (hgood : ∀ e ∈ es, e.hash.valid ∧ ' ' ∉ e.name ∧ '\n' ∉ e.name ∧
      e.name.getLast? ≠ some '\r') :
    readNodeEntryLines ((es.map NodeEntry.writeBytes).flatten) = .ok es := by
  induction es with
  | nil => rfl
  | cons e es ih =>
    obtain ⟨hv, hs, hn, hcr⟩ := hgood e (List.mem_cons_self e es)
    have hsplit : (((e :: es).map NodeEntry.writeBytes).flatten) =
        (e.kind.asRef ++ ' ' :: e.hash.display ++ ' ' :: e.name) ++
          '\n' :: ((es.map NodeEntry.writeBytes).flatten) := by
      simp [NodeEntry.writeBytes]
    rw [readNodeEntryLines, hsplit,
      linesOf_cons_line (entryBody_no_newline hn) (entryBody_last_not_cr hcr)]
    have ihx := ih (fun e' he' => hgood e' (List.mem_cons_of_mem e he'))
    rw [readNodeEntryLines] at ihx
    simp only [readEntryLinesAux, parseEntryLine_ok hv hs, ihx]

theorem readKeyValueLine_exact {key value rest : List Char}
    (hk1 : '\n' ∉ key) (hk2 : '=' ∉ key) (hv : '\n' ∉ value)
    (hlast : ∀ c, value.getLast? = some c → c.isWhitespace = false) :
    readKeyValueLine key (key ++ '=' :: value ++ '\n' :: rest) = .ok (value, rest) := by
  rw [readKeyValueLine_ok hk1 hk2 hv, trimEnd_no_ws hlast]

theorem sortEntries_isEmpty (es : List NodeEntry) :
    (sortEntries es).isEmpty = es.isEmpty := by
  cases es with
  | nil => rfl
  | cons a as =>
    have hne : sortEntries (a :: as) ≠ [] := by
      intro h0
      have hlen := (sortEntries_perm (a :: as)).length_eq
      rw [h0] at hlen
      simp at hlen
    simp [List.isEmpty_iff, hne]

theorem entryBlock_sort (es : List NodeEntry) :
    entryBlock (sortEntries es) = entryBlock es := by
  unfold entryBlock
  rw [sortEntries_idem, sortEntries_isEmpty]

/-- Claim C3 (amended): the canonical serialization of a node
`(kind, inner, entries)` consists exactly of the lines `version=1`,
`node_kind=(leaf or tree)`, `object_kind=(the inner object kind)`, a blank
line, then the payload bytes of `inner`; a blank line followed by the
entry block is appended if and only if `entries` is non-empty — the node
kind is not consulted for this — so in particular a Tree with zero
children emits no trailing blank line and no entry lines. -/
theorem claim3_theorem {T : Type} (P : PayloadOps T) (kind : NodeKind) (inner : T)
    (entries : List NodeEntry) :
    nodeWriteBytes P kind inner entries =
      "version".data ++ '=' :: "1".data ++ '\n' ::
        ("node_kind".data ++ '=' :: kind.asRef ++ '\n' ::
          ("object_kind".data ++ '=' :: P.objectKind inner ++ '\n' ::
            ('\n' :: (P.writeBytes inner ++
              (if entries.isEmpty then []
               else '\n' ::
                 ((sortEntries entries).map NodeEntry.writeBytes).flatten))))) ∧
    nodeWriteBytes P kind inner [] =
      "version".data ++ '=' :: "1".data ++ '\n' ::
        ("node_kind".data ++ '=' :: kind.asRef ++ '\n' ::
          ("object_kind".data ++ '=' :: P.objectKind inner ++ '\n' ::
            ('\n' :: P.writeBytes inner))) := by
  constructor
  · simp [nodeWriteBytes, writeHeaderBytes, writeKeyValueLine, entryBlock]
  · simp [nodeWriteBytes, writeHeaderBytes, writeKeyValueLine, entryBlock]

/-- Counterexample to C3 as stated: a Leaf node given a non-empty entry
list serializes with the blank line and the entry block appended even
though its kind is not Tree — the writer only tests whether the entry
list is empty. -/
theorem claim3_counterexample :
    nodeWriteBytes propOps .leaf alphaPayload [exEntryBeta] ≠
      writeHeaderBytes .leaf (propOps.objectKind alphaPayload) ++
        '\n' :: propOps.writeBytes alphaPayload ∧
    nodeWriteBytes propOps .leaf alphaPayload [exEntryBeta] =
      writeHeaderBytes .leaf (propOps.objectKind alphaPayload) ++
        '\n' :: propOps.writeBytes alphaPayload ++
          '\n' :: (([exEntryBeta].map NodeEntry.writeBytes).flatten) := by
  constructor
  · decide
  · decide

/-- Claim C10: the canonical bytes of a Tree node with zero children end
after the payload with no trailing blank line and no entry lines, and
`NodeWithEntries::read_bytes` accepts them, returning an empty entry
list: the blank-line read before the entry block reads zero bytes at end
of input and accepts the resulting empty string as blank, and reading
entry lines at end of input yields the empty list. -/
theorem claim10_theorem {T : Type} (P : PayloadOps T) (x : T)
    (hok : P.objectKind x = "prop".data)
    (hread : P.readBytes (P.writeBytes x) = .ok (x, [])) :
    NodeWithEntries.readBytes P (nodeWriteBytes P .tree x []) = .ok (⟨.tree, x, []⟩, []) ∧
    readEmptyLine [] = .ok [] ∧ readNodeEntryLines [] = .ok [] := by
  refine ⟨?_, readEmptyLine_nil, readNodeEntryLines_nil⟩
  have e1 : nodeWriteBytes P .tree x [] =
      "version".data ++ '=' :: "1".data ++ '\n' ::
        ("node_kind".data ++ '=' :: "tree".data ++ '\n' ::
          ("object_kind".data ++ '=' :: "prop".data ++ '\n' ::
            ('\n' :: P.writeBytes x))) := by
    simp [nodeWriteBytes, writeHeaderBytes, writeKeyValueLine, entryBlock,
      NodeKind.asRef, hok]
  have r1 : ∀ rest : List Char, readKeyValueLine "version".data
      ("version".data ++ '=' :: "1".data ++ '\n' :: rest) = .ok ("1".data, rest) :=
    fun _ => readKeyValueLine_exact (by decide) (by decide) (by decide) (by decide)
  have r2 : ∀ rest : List Char, readKeyValueLine "node_kind".data
      ("node_kind".data ++ '=' :: "tree".data ++ '\n' :: rest) = .ok ("tree".data, rest) :=
    fun _ => readKeyValueLine_exact (by decide) (by decide) (by decide) (by decide)
  have r3 : ∀ rest : List Char, readKeyValueLine "object_kind".data
      ("object_kind".data ++ '=' :: "prop".data ++ '\n' :: rest) = .ok ("prop".data, rest) :=
    fun _ => readKeyValueLine_exact (by decide) (by decide) (by decide) (by decide)
  have hkindparse : NodeKind.fromStr "tree".data = some .tree := by decide
  rw [e1]
  simp only [NodeWithEntries.readBytes, r1, r2, r3, hkindparse, readEmptyLine_nl, hread,
    readEmptyLine_nil, readNodeEntryLines_nil]
  simp

/-- Witness for C10 at a concrete payload. -/
theorem claim10_witness :
    NodeWithEntries.readBytes propOps (nodeWriteBytes propOps .tree alphaPayload []) =
      .ok (⟨.tree, alphaPayload, []⟩, []) ∧
    readEmptyLine [] = .ok [] ∧ readNodeEntryLines [] = .ok [] :=
  claim10_theorem propOps alphaPayload (by decide) (by decide)

/-- Claim C4 (amended): parsing the canonical serialization of a node
with `NodeWithEntries::read_bytes` and re-serializing the result with the
canonical writer reproduces the bytes exactly, for every node whose
payload round-trips and carries the expected object kind `prop`, whose
kind is Tree whenever it has entries, and whose entries carry well-formed
hashes and names that contain no space and no newline — and additionally
do not end in a carriage return, a condition the original claim omits. -/
theorem claim4_theorem {T : Type} (P : PayloadOps T) (kind : NodeKind) (x : T)
    (entries : List NodeEntry)
    (hok : P.objectKind x = "prop".data)
    (hread : P.readBytes (P.writeBytes x ++ entryBlock entries) =
      .ok (x, entryBlock entries))
    (hkind : kind = .leaf → entries = [])
    (hent : ∀ e ∈ entries, e.hash.valid ∧ ' ' ∉ e.name ∧ '\n' ∉ e.name ∧
      e.name.getLast? ≠ some '\r') :
    NodeWithEntries.readBytes P (nodeWriteBytes P kind x entries) =
      .ok (⟨kind, x, sortEntries entries⟩, []) ∧
    nodeWriteBytes P kind x (sortEntries entries) = nodeWriteBytes P kind x entries := by
  constructor
  · have e1 : nodeWriteBytes P kind x entries =
        "version".data ++ '=' :: "1".data ++ '\n' ::
          ("node_kind".data ++ '=' :: kind.asRef ++ '\n' ::
            ("object_kind".data ++ '=' :: "prop".data ++ '\n' ::
              ('\n' :: (P.writeBytes x ++ entryBlock entries)))) := by
      simp [nodeWriteBytes, writeHeaderBytes, writeKeyValueLine, hok]
    have r1 : ∀ rest : List Char, readKeyValueLine "version".data
        ("version".data ++ '=' :: "1".data ++ '\n' :: rest) = .ok ("1".data, rest) :=
      fun _ => readKeyValueLine_exact (by decide) (by decide) (by decide) (by decide)
    have r2 : ∀ rest : List Char, readKeyValueLine "node_kind".data
        ("node_kind".data ++ '=' :: kind.asRef ++ '\n' :: rest) = .ok (kind.asRef, rest) :=
      fun _ => readKeyValueLine_exact (by decide) (by decide) (asRef_no_newline kind)
        (by cases kind <;> decide)
    have r3 : ∀ rest : List Char, readKeyValueLine "object_kind".data
        ("object_kind".data ++ '=' :: "prop".data ++ '\n' :: rest) = .ok ("prop".data, rest) :=
      fun _ => readKeyValueLine_exact (by decide) (by decide) (by decide) (by decide)
    rw [e1]
    simp only [NodeWithEntries.readBytes, r1, r2, r3, fromStr_asRef, readEmptyLine_nl, hread]
    cases kind with
    | leaf =>
      have he : entries = [] := hkind rfl
      subst he
      simp [sortEntries, List.insertionSort]
      rfl
    | tree =>
      rcases hc : entries with _ | ⟨e0, es0⟩
      · simp only [entryBlock, List.isEmpty_nil, if_true, readEmptyLine_nil,
          readNodeEntryLines_nil]
        simp [sortEntries, List.insertionSort]
      · rw [← hc]
        have hbne : entries.isEmpty = false := by rw [hc]; rfl
        have hblock : entryBlock entries =
            '\n' :: ((sortEntries entries).map NodeEntry.writeBytes).flatten := by
          rw [entryBlock, hbne]
          simp
        have hgood : ∀ e ∈ sortEntries entries, e.hash.valid ∧ ' ' ∉ e.name ∧
            '\n' ∉ e.name ∧ e.name.getLast? ≠ some '\r' :=
          fun e he => hent e ((sortEntries_perm entries).mem_iff.mp he)
        rw [hblock]
        simp only [readEmptyLine_nl, readNodeEntryLines_concat (sortEntries entries) hgood]
        simp
  · unfold nodeWriteBytes
    rw [entryBlock_sort]

/-- Witness for C4 at a concrete tree node with two entries supplied out
of name order. -/
theorem claim4_witness :
    NodeWithEntries.readBytes propOps
        (nodeWriteBytes propOps .tree alphaPayload [exEntryBeta, exEntryAlpha]) =
      .ok (⟨.tree, alphaPayload, sortEntries [exEntryBeta, exEntryAlpha]⟩, []) ∧
    nodeWriteBytes propOps .tree alphaPayload (sortEntries [exEntryBeta, exEntryAlpha]) =
      nodeWriteBytes propOps .tree alphaPayload [exEntryBeta, exEntryAlpha] :=
  claim4_theorem propOps .tree alphaPayload [exEntryBeta, exEntryAlpha]
    (by decide) (by decide) (by intro h; cases h) (by decide)

/-- Counterexample to C4 as stated: a serialized node whose entry name
ends with a carriage return is valid for the writer (the name contains
neither space nor newline, which is all the spec's wire format excludes),
yet the reader strips the carriage return — `BufRead::lines` treats CRLF
like LF — so re-serializing the parsed node does not reproduce the
original bytes. -/
theorem claim4_counterexample :
    NodeWithEntries.readBytes propOps
        (nodeWriteBytes propOps .tree alphaPayload [exEntryCR]) =
      .ok (⟨.tree, alphaPayload, [⟨.leaf, Hash.new "z".data, "x".data⟩]⟩, []) ∧
    nodeWriteBytes propOps .tree alphaPayload [⟨.leaf, Hash.new "z".data, "x".data⟩] ≠
      nodeWriteBytes propOps .tree alphaPayload [exEntryCR] := by
  constructor
  · decide
  · decide

theorem size_pos {T : Type} (t : NodeWithChildren T) : 0 < t.size := by
  cases t with
  | mk k x cs => rw [NodeWithChildren.size]; omega

mutual

theorem length_flattenPre {T : Type} (t : NodeWithChildren T) :
    (flattenPre t).length = t.size := by
  cases t with
  | mk k x cs =>
    rw [flattenPre, NodeWithChildren.size, List.length_cons, length_flattenPreL cs]
    omega

theorem length_flattenPreL {T : Type} (cs : List (NodeWithChildren T)) :
    (flattenPreL cs).length = NodeWithChildren.sizeL cs := by
  cases cs with
  | nil => rfl
  | cons c cs =>
    rw [flattenPreL, NodeWithChildren.sizeL, List.length_append, length_flattenPre c,
      length_flattenPreL cs]

end

theorem appendForest_nil {T : Type} (g : Graph (Node T)) (p : Nat) :
    appendForest g p [] = g := by
  simp [appendForest, flattenPreL, edgesL]

theorem appendForest_cons {T : Type} (g : Graph (Node T)) (p : Nat)
    (c : NodeWithChildren T) (cs : List (NodeWithChildren T)) :
    appendForest (appendSubtree g p c) p cs = appendForest g p (c :: cs) := by
  unfold appendForest appendSubtree
  simp only [List.length_append, List.length_map, length_flattenPre]
  rw [flattenPreL, edgesL]
  simp [List.map_append, List.append_assoc]

mutual

theorem createLoop_subtree {T : Type} (t : NodeWithChildren T) (fuel p : Nat)
    (rest : List (NodeWithChildren T × Option Nat)) (g : Graph (Node T)) (r : Option Nat) :
    createLoop (t.size + fuel) ((t, some p) :: rest) g r =
      createLoop fuel rest (appendSubtree g p t) r := by
  cases t with
  | mk k x cs =>
    have harith : NodeWithChildren.size (.mk k x cs) + fuel
        = (NodeWithChildren.sizeL cs + fuel) + 1 := by
      rw [NodeWithChildren.size]; omega
    rw [harith]
    simp only [createLoop, Graph.addNode]
    rw [createLoop_forest cs fuel g.nodes.length rest _ r]
    congr 1
    unfold appendForest appendSubtree Graph.addEdge
    simp [flattenPre, edgesFrom, NodeWithChildren.toNode, NodeWithChildren.kind,
      NodeWithChildren.inner]

theorem createLoop_forest {T : Type} (cs : List (NodeWithChildren T)) (fuel p : Nat)
    (rest : List (NodeWithChildren T × Option Nat)) (g : Graph (Node T)) (r : Option Nat) :
    createLoop (NodeWithChildren.sizeL cs + fuel) ((cs.map (fun c => (c, some p))) ++ rest) g r =
      createLoop fuel rest (appendForest g p cs) r := by
  cases cs with
  | nil =>
    rw [NodeWithChildren.sizeL, appendForest_nil]
    simp
  | cons c cs =>
    have harith : NodeWithChildren.sizeL (c :: cs) + fuel
        = c.size + (NodeWithChildren.sizeL cs + fuel) := by
      rw [NodeWithChildren.sizeL]; omega
    rw [harith]
    simp only [List.map_cons, List.cons_append]
    rw [createLoop_subtree c (NodeWithChildren.sizeL cs + fuel) p
      (cs.map (fun c => (c, some p)) ++ rest) g r]
    rw [createLoop_forest cs fuel p rest (appendSubtree g p c) r]
    rw [appendForest_cons]

end

theorem createFromRoot_spec {T : Type} (t : NodeWithChildren T) :
    HashingTree.createFromRoot t = some (.ok (graphOfTree t, 0)) := by
  unfold HashingTree.createFromRoot
  cases t with
  | mk k x cs =>
    have harith : NodeWithChildren.size (.mk k x cs) + 1
        = (NodeWithChildren.sizeL cs + 1) + 1 := by
      rw [NodeWithChildren.size]; omega
    rw [harith]
    simp only [createLoop, Graph.addNode, Graph.empty, List.length_nil, List.nil_append]
    rw [createLoop_forest cs 1 0 [] ⟨[⟨k, x⟩], []⟩ (some 0)]
    have hg : appendForest ⟨[⟨k, x⟩], []⟩ 0 cs = graphOfTree (.mk k x cs) := by
      unfold appendForest graphOfTree
      simp [flattenPre, edgesFrom, NodeWithChildren.toNode, NodeWithChildren.kind,
        NodeWithChildren.inner]
    rw [show createLoop 1 ([] : List (NodeWithChildren T × Option Nat))
        (appendForest ⟨[⟨k, x⟩], []⟩ 0 cs) (some 0)
      = some (.ok (appendForest ⟨[⟨k, x⟩], []⟩ 0 cs, some 0)) from rfl]
    rw [hg]

theorem flattenPreL_get_lt {T : Type} {c : NodeWithChildren T}
    {cs : List (NodeWithChildren T)} {j : Nat} (hj : j < c.size) :
    (flattenPreL (c :: cs)).get? j = (flattenPre c).get? j := by
  rw [flattenPreL, List.get?_append (by rw [length_flattenPre]; exact hj)]

theorem flattenPreL_get_ge {T : Type} {c : NodeWithChildren T}
    {cs : List (NodeWithChildren T)} {j : Nat} (hj : c.size ≤ j) :
    (flattenPreL (c :: cs)).get? j = (flattenPreL cs).get? (j - c.size) := by
  rw [flattenPreL, List.get?_append_right (by rw [length_flattenPre]; exact hj),
    length_flattenPre]

theorem get_flattenPre_lt {T : Type} {t : NodeWithChildren T} {j : Nat}
    {s' : NodeWithChildren T} (h : (flattenPre t).get? j = some s') : j < t.size := by
  have hx := (List.get?_eq_some.mp h).1
  rwa [length_flattenPre] at hx

theorem get_flattenPreL_lt {T : Type} {cs : List (NodeWithChildren T)} {j : Nat}
    {s' : NodeWithChildren T} (h : (flattenPreL cs).get? j = some s') :
    j < NodeWithChildren.sizeL cs := by
  have hx := (List.get?_eq_some.mp h).1
  rwa [length_flattenPreL] at hx

mutual

theorem edgesFrom_bounds {T : Type} (t : NodeWithChildren T) (b : Nat) :
    ∀ e ∈ edgesFrom b t, (b ≤ e.1 ∧ e.1 < b + t.size) ∧
      (b + 1 ≤ e.2 ∧ e.2 < b + t.size) := by
  cases t with
  | mk k x cs =>
    intro e he
    rw [edgesFrom] at he
    have hb := edgesL_bounds cs b (b + 1) e he
    rw [NodeWithChildren.size]
    rcases hb with ⟨h1 | h1, h2⟩ <;> omega

theorem edgesL_bounds {T : Type} (cs : List (NodeWithChildren T)) (p nb : Nat) :
    ∀ e ∈ edgesL p nb cs,
      (e.1 = p ∨ (nb ≤ e.1 ∧ e.1 < nb + NodeWithChildren.sizeL cs)) ∧
      (nb ≤ e.2 ∧ e.2 < nb + NodeWithChildren.sizeL cs) := by
  cases cs with
  | nil => intro e he; rw [edgesL] at he; exact absurd he (List.not_mem_nil e)
  | cons c cs =>
    intro e he
    rw [edgesL] at he
    rw [NodeWithChildren.sizeL]
    have hcpos := size_pos c
    rcases List.mem_cons.mp he with rfl | he2
    · refine ⟨Or.inl rfl, ?_⟩
      simp only []
      omega
    · rcases List.mem_append.mp he2 with h | h
      · have hb := edgesFrom_bounds c nb e h
        rcases hb with ⟨h1, h2⟩
        exact ⟨Or.inr (by omega), by omega⟩
      · have hb := edgesL_bounds cs p (nb + c.size) e h
        rcases hb with ⟨h1 | h1, h2⟩
        · exact ⟨Or.inl h1, by omega⟩
        · exact ⟨Or.inr (by omega), by omega⟩

end

theorem edgesL_filter_parent {T : Type} (cs : List (NodeWithChildren T)) (p : Nat) :
    ∀ nb, p < nb →
      (edgesL p nb cs).filter (fun e => e.1 = p) = (childStarts nb cs).map (fun y => (p, y)) := by
  induction cs with
  | nil => intro nb hp; rfl
  | cons c cs ih =>
    intro nb hp
    rw [edgesL, childStarts]
    rw [List.filter_cons]
    have hfc : (edgesFrom nb c).filter (fun e => e.1 = p) = [] := by
      rw [List.filter_eq_nil_iff]
      intro e he
      have := (edgesFrom_bounds c nb e he).1
      simp only [decide_eq_true_eq]
      omega
    rw [List.filter_append, hfc, ih (nb + c.size) (by have := size_pos c; omega)]
    simp

mutual

theorem edgesFrom_filter {T : Type} (t : NodeWithChildren T) (b j : Nat)
    (s' : NodeWithChildren T) (hget : (flattenPre t).get? j = some s') :
    (edgesFrom b t).filter (fun e => e.1 = b + j) =
      (childStarts (b + j + 1) s'.children).map (fun y => (b + j, y)) := by
  cases t with
  | mk k x cs =>
    cases j with
    | zero =>
      rw [flattenPre] at hget
      have hs : s' = .mk k x cs := by
        have : some (NodeWithChildren.mk k x cs) = some s' := hget
        exact (Option.some.injEq _ _ ▸ this).symm
      subst hs
      rw [edgesFrom, NodeWithChildren.children]
      have := edgesL_filter_parent cs b (b + 1) (by omega)
      simpa using this
    | succ j =>
      have hget2 : (flattenPreL cs).get? j = some s' := hget
      have harith : b + (j + 1) = (b + 1) + j := by omega
      rw [edgesFrom, harith]
      exact edgesL_filter cs b (b + 1) j s' (by omega) hget2

theorem edgesL_filter {T : Type} (cs : List (NodeWithChildren T)) (p nb j : Nat)
    (s' : NodeWithChildren T) (hp : p < nb)
    (hget : (flattenPreL cs).get? j = some s') :
    (edgesL p nb cs).filter (fun e => e.1 = nb + j) =
      (childStarts (nb + j + 1) s'.children).map (fun y => (nb + j, y)) := by
  cases cs with
  | nil =>
    exact absurd hget (by rw [flattenPreL]; simp)
  | cons c cs =>
    rw [edgesL, List.filter_cons, List.filter_append]
    have hhead : ¬ (decide (p = nb + j) = true) := by
      simp only [decide_eq_true_eq]
      omega
    by_cases hj : j < c.size
    · have hget2 : (flattenPre c).get? j = some s' := by
        rw [← flattenPreL_get_lt hj]; exact hget
      have hrest : (edgesL p (nb + c.size) cs).filter (fun e => e.1 = nb + j) = [] := by
        rw [List.filter_eq_nil_iff]
        intro e he
        have := (edgesL_bounds cs p (nb + c.size) e he).1
        simp only [decide_eq_true_eq]
        omega
      rw [hrest, edgesFrom_filter c nb j s' hget2]
      simp [hhead]
    · have hge : c.size ≤ j := by omega
      have hget2 : (flattenPreL cs).get? (j - c.size) = some s' := by
        rw [← flattenPreL_get_ge hge]; exact hget
      have hfc : (edgesFrom nb c).filter (fun e => e.1 = nb + j) = [] := by
        rw [List.filter_eq_nil_iff]
        intro e he
        have := (edgesFrom_bounds c nb e he).1
        simp only [decide_eq_true_eq]
        omega
      have hrec := edgesL_filter cs p (nb + c.size) (j - c.size) s'
        (by omega) hget2
      have harith : nb + c.size + (j - c.size) = nb + j := by omega
      rw [harith] at hrec
      rw [hfc, hrec]
      simp [hhead]

end

theorem neighborsOut_of_edges {α T : Type} (g : Graph α) (t : NodeWithChildren T)
    (hedges : g.edges = edgesFrom 0 t) {i : Nat} {s' : NodeWithChildren T}
    (hget : (flattenPre t).get? i = some s') :
    g.neighborsOut i = (childStarts (i + 1) s'.children).reverse := by
  unfold Graph.neighborsOut
  rw [hedges]
  have hf := edgesFrom_filter t 0 i s' hget
  simp only [Nat.zero_add] at hf
  rw [hf, List.map_map]
  simp

theorem childStarts_length {T : Type} (cs : List (NodeWithChildren T)) (nb : Nat) :
    (childStarts nb cs).length = cs.length := by
  induction cs generalizing nb with
  | nil => rfl
  | cons c cs ih => rw [childStarts]; simp [ih]

theorem outDegree_of_edges {α T : Type} (g : Graph α) (t : NodeWithChildren T)
    (hedges : g.edges = edgesFrom 0 t) {i : Nat} {s' : NodeWithChildren T}
    (hget : (flattenPre t).get? i = some s') :
    g.outDegree i = s'.children.length := by
  unfold Graph.outDegree
  rw [hedges]
  have hf := edgesFrom_filter t 0 i s' hget
  simp only [Nat.zero_add] at hf
  rw [hf, List.length_map, childStarts_length]

mutual

theorem mem_postIdx_range {T : Type} (s : NodeWithChildren T) (b : Nat) :
    ∀ j ∈ postIdx b s, b ≤ j ∧ j < b + s.size := by
  cases s with
  | mk k x cs =>
    intro j hj
    rw [postIdx] at hj
    rw [NodeWithChildren.size]
    rcases List.mem_append.mp hj with h | h
    · have := mem_postIdxL_range cs (b + 1) j h
      omega
    · rcases List.mem_cons.mp h with rfl | h2
      · have := NodeWithChildren.sizeL (T := T) cs
        omega
      · exact absurd h2 (List.not_mem_nil j)

theorem mem_postIdxL_range {T : Type} (cs : List (NodeWithChildren T)) (nb : Nat) :
    ∀ j ∈ postIdxL nb cs, nb ≤ j ∧ j < nb + NodeWithChildren.sizeL cs := by
  cases cs with
  | nil => intro j hj; exact absurd hj (by rw [postIdxL]; exact List.not_mem_nil j)
  | cons c cs =>
    intro j hj
    rw [postIdxL] at hj
    rw [NodeWithChildren.sizeL]
    rcases List.mem_append.mp hj with h | h
    · have := mem_postIdx_range c nb j h
      have := NodeWithChildren.sizeL (T := T) cs
      omega
    · have := mem_postIdxL_range cs (nb + c.size) j h
      omega

end

mutual

theorem mem_preIdxs_range {T : Type} (s : NodeWithChildren T) (b : Nat) :
    ∀ j ∈ preIdxs b s, b ≤ j ∧ j < b + s.size := by
  cases s with
  | mk k x cs =>
    intro j hj
    rw [preIdxs] at hj
    rw [NodeWithChildren.size]
    rcases List.mem_cons.mp hj with rfl | h
    · omega
    · have := mem_preIdxsL_range cs (b + 1) j h
      omega

theorem mem_preIdxsL_range {T : Type} (cs : List (NodeWithChildren T)) (nb : Nat) :
    ∀ j ∈ preIdxsL nb cs, nb ≤ j ∧ j < nb + NodeWithChildren.sizeL cs := by
  cases cs with
  | nil => intro j hj; exact absurd hj (by rw [preIdxsL]; exact List.not_mem_nil j)
  | cons c cs =>
    intro j hj
    rw [preIdxsL] at hj
    rw [NodeWithChildren.sizeL]
    rcases List.mem_append.mp hj with h | h
    · have := mem_preIdxs_range c nb j h
      omega
    · have := mem_preIdxsL_range cs (nb + c.size) j h
      omega

end

theorem childStarts_range {T : Type} (cs : List (NodeWithChildren T)) (nb : Nat) :
    ∀ y ∈ childStarts nb cs, nb ≤ y ∧ y < nb + NodeWithChildren.sizeL cs := by
  induction cs generalizing nb with
  | nil => intro y hy; exact absurd hy (by rw [childStarts]; exact List.not_mem_nil y)
  | cons c cs ih =>
    intro y hy
    rw [childStarts] at hy
    rw [NodeWithChildren.sizeL]
    have hcpos := size_pos c
    rcases List.mem_cons.mp hy with rfl | h
    · omega
    · have := ih (nb + c.size) y h
      omega

theorem goodAt_children {α T : Type} {g : Graph α} {nodeOf : NodeWithChildren T → α}
    {β : Nat} {k : NodeKind} {x : T} {cs : List (NodeWithChildren T)}
    (h : GoodAt g nodeOf β (.mk k x cs)) : GoodAtL g nodeOf (β + 1) cs := by
  intro j s' hget
  have hx := h (j + 1) s' hget
  have harith : β + (j + 1) = (β + 1) + j := by omega
  rwa [harith] at hx

theorem goodAtL_head {α T : Type} {g : Graph α} {nodeOf : NodeWithChildren T → α}
    {nb : Nat} {c : NodeWithChildren T} {cs : List (NodeWithChildren T)}
    (h : GoodAtL g nodeOf nb (c :: cs)) : GoodAt g nodeOf nb c := by
  intro j s' hget
  have hj : j < c.size := get_flattenPre_lt hget
  exact h j s' (by rw [flattenPreL_get_lt hj]; exact hget)

theorem goodAtL_tail {α T : Type} {g : Graph α} {nodeOf : NodeWithChildren T → α}
    {nb : Nat} {c : NodeWithChildren T} {cs : List (NodeWithChildren T)}
    (h : GoodAtL g nodeOf nb (c :: cs)) : GoodAtL g nodeOf (nb + c.size) cs := by
  intro j s' hget
  have hx := h (c.size + j) s' (by
    rw [flattenPreL_get_ge (by omega)]
    rw [show c.size + j - c.size = j from by omega]
    exact hget)
  have harith : nb + (c.size + j) = (nb + c.size) + j := by omega
  rwa [harith] at hx

theorem goodAt_base {α T : Type} (g : Graph α) (nodeOf : NodeWithChildren T → α)
    (t : NodeWithChildren T)
    (hnodes : g.nodes = (flattenPre t).map nodeOf) (hedges : g.edges = edgesFrom 0 t) :
    GoodAt g nodeOf 0 t := by
  intro j s' hget
  constructor
  · rw [hnodes, Nat.zero_add, List.get?_map, hget]
    rfl
  · have := neighborsOut_of_edges g t hedges hget
    rwa [Nat.zero_add]

mutual

theorem dfspo_subtree {α T : Type} (g : Graph α) (nodeOf : NodeWithChildren T → α)
    (s : NodeWithChildren T) (β fuel : Nat) (stack dis fin : List Nat)
    (hgood : GoodAt g nodeOf β s)
    (hdis : ∀ j, j < s.size → (β + j) ∉ dis)
    (hfin : ∀ j, j < s.size → (β + j) ∉ fin) :
    dfspoRun g (2 * s.size + fuel) (β :: stack) dis fin =
      postIdx β s ++ dfspoRun g fuel stack
        ((preIdxs β s).reverse ++ dis) ((postIdx β s).reverse ++ fin) := by
  cases s with
  | mk k x cs =>
    have harith : 2 * (NodeWithChildren.mk k x cs).size + fuel
        = (2 * NodeWithChildren.sizeL cs + (fuel + 1)) + 1 := by
      rw [NodeWithChildren.size]; omega
    rw [harith]
    have hβdis : β ∉ dis := by
      have hx := hdis 0 (size_pos _)
      simpa using hx
    have hnb : g.neighborsOut β = (childStarts (β + 1) cs).reverse := by
      have hx := (hgood 0 (.mk k x cs) rfl).2
      simpa [NodeWithChildren.children] using hx
    have hfilter : ((childStarts (β + 1) cs).reverse).filter
        (fun y => ¬ y ∈ β :: dis) = (childStarts (β + 1) cs).reverse := by
      rw [List.filter_eq_self]
      intro y hy
      have hyr := List.mem_reverse.mp hy
      have hrange := childStarts_range cs (β + 1) y hyr
      simp only [decide_eq_true_eq, List.mem_cons, not_or]
      constructor
      · omega
      · have hx := hdis (y - β) (by
          rw [NodeWithChildren.size]; omega)
        rwa [show β + (y - β) = y from by omega] at hx
    rw [dfspoRun, if_neg hβdis]
    simp only [hnb, hfilter, List.reverse_reverse]
    rw [dfspo_forest g nodeOf cs (β + 1) (fuel + 1) (β :: stack) (β :: dis) fin
      (goodAt_children hgood)
      (by
        intro j hj
        simp only [List.mem_cons, not_or]
        constructor
        · omega
        · have hx := hdis (1 + j) (by rw [NodeWithChildren.size]; omega)
          rwa [show β + (1 + j) = (β + 1) + j from by omega] at hx)
      (by
        intro j hj
        have hx := hfin (1 + j) (by rw [NodeWithChildren.size]; omega)
        rwa [show β + (1 + j) = (β + 1) + j from by omega] at hx)]
    have hβA : β ∈ (preIdxsL (β + 1) cs).reverse ++ β :: dis :=
      List.mem_append_right _ (List.mem_cons_self β dis)
    have hβB : β ∉ (postIdxL (β + 1) cs).reverse ++ fin := by
      intro hmem
      rcases List.mem_append.mp hmem with h | h
      · have := mem_postIdxL_range cs (β + 1) β (List.mem_reverse.mp h)
        omega
      · have hx := hfin 0 (size_pos _)
        simp at hx
        exact hx h
    rw [dfspoRun, if_pos hβA, if_neg hβB]
    rw [postIdx, preIdxs]
    simp [List.append_assoc, List.reverse_append]

theorem dfspo_forest {α T : Type} (g : Graph α) (nodeOf : NodeWithChildren T → α)
    (cs : List (NodeWithChildren T)) (nb fuel : Nat) (stack dis fin : List Nat)
    (hgood : GoodAtL g nodeOf nb cs)
    (hdis : ∀ j, j < NodeWithChildren.sizeL cs → (nb + j) ∉ dis)
    (hfin : ∀ j, j < NodeWithChildren.sizeL cs → (nb + j) ∉ fin) :
    dfspoRun g (2 * NodeWithChildren.sizeL cs + fuel) (childStarts nb cs ++ stack) dis fin =
      postIdxL nb cs ++ dfspoRun g fuel stack
        ((preIdxsL nb cs).reverse ++ dis) ((postIdxL nb cs).reverse ++ fin) := by
  cases cs with
  | nil =>
    rw [NodeWithChildren.sizeL, childStarts, postIdxL, preIdxsL]
    simp
  | cons c cs =>
    have harith : 2 * NodeWithChildren.sizeL (c :: cs) + fuel
        = 2 * c.size + (2 * NodeWithChildren.sizeL cs + fuel) := by
      rw [NodeWithChildren.sizeL]; omega
    rw [harith, childStarts, List.cons_append]
    rw [dfspo_subtree g nodeOf c nb (2 * NodeWithChildren.sizeL cs + fuel)
      (childStarts (nb + c.size) cs ++ stack) dis fin
      (goodAtL_head hgood)
      (fun j hj => hdis j (by rw [NodeWithChildren.sizeL]; omega))
      (fun j hj => hfin j (by rw [NodeWithChildren.sizeL]; omega))]
    rw [dfspo_forest g nodeOf cs (nb + c.size) fuel stack
      ((preIdxs nb c).reverse ++ dis) ((postIdx nb c).reverse ++ fin)
      (goodAtL_tail hgood)
      (by
        intro j hj
        intro hmem
        rcases List.mem_append.mp hmem with h | h
        · have := mem_preIdxs_range c nb _ (List.mem_reverse.mp h)
          omega
        · have hx := hdis (c.size + j) (by rw [NodeWithChildren.sizeL]; omega)
          rw [show nb + (c.size + j) = (nb + c.size) + j from by omega] at hx
          exact hx h)
      (by
        intro j hj
        intro hmem
        rcases List.mem_append.mp hmem with h | h
        · have := mem_postIdx_range c nb _ (List.mem_reverse.mp h)
          omega
        · have hx := hfin (c.size + j) (by rw [NodeWithChildren.sizeL]; omega)
          rw [show nb + (c.size + j) = (nb + c.size) + j from by omega] at hx
          exact hx h)]
    rw [postIdxL, preIdxsL]
    simp [List.append_assoc, List.reverse_append]

end

theorem dfsPostOrder_spec {T : Type} (t : NodeWithChildren T) :
    dfsPostOrder (graphOfTree t) 0 = postIdx 0 t := by
  unfold dfsPostOrder
  have hlen : (graphOfTree t).nodes.length = t.size := by
    unfold graphOfTree
    simp [length_flattenPre]
  rw [hlen, show 2 * t.size + 1 = 2 * t.size + 1 from rfl]
  rw [dfspo_subtree (graphOfTree t) NodeWithChildren.toNode t 0 1 [] [] []
    (goodAt_base _ _ _ rfl rfl)
    (fun j hj => List.not_mem_nil _)
    (fun j hj => List.not_mem_nil _)]
  rw [show dfspoRun (graphOfTree t) 1 ([] : List Nat)
      ((preIdxs 0 t).reverse ++ []) ((postIdx 0 t).reverse ++ []) = [] from rfl]
  simp

theorem nodeAt_eq {α : Type} [Inhabited α] {g : Graph α} {i : Nat} {a : α}
    (h : g.nodes.get? i = some a) : g.nodeAt i = a := by
  unfold Graph.nodeAt
  rw [List.getD_eq_getElem?_getD, ← List.get?_eq_getElem?, h]
  rfl

theorem lookup_cons_self {β : Type} {k : Nat} {v : β} {l : List (Nat × β)} :
    List.lookup k ((k, v) :: l) = some v := by
  simp [List.lookup]

theorem lookup_cons_ne {β : Type} {k a : Nat} {v : β} {l : List (Nat × β)} (h : a ≠ k) :
    List.lookup a ((k, v) :: l) = List.lookup a l := by
  simp [List.lookup, beq_eq_false_iff_ne.mpr h]

theorem lookup_skip {β : Type} {l l2 : List (Nat × β)} {i : Nat}
    (h : ∀ q ∈ l, q.1 ≠ i) : List.lookup i (l ++ l2) = List.lookup i l2 := by
  induction l with
  | nil => rfl
  | cons q l ih =>
    have hq := h q (List.mem_cons_self q l)
    rw [List.cons_append, lookup_cons_ne (fun he => hq (by rw [he]))]
    exact ih (fun q' hq' => h q' (List.mem_cons_of_mem q hq'))

mutual

theorem hashAssoc_keys {T : Type} (P : PayloadOps T) (s : NodeWithChildren T) (b : Nat) :
    ∀ q ∈ hashAssoc P b s, b ≤ q.1 ∧ q.1 < b + s.size := by
  cases s with
  | mk k x cs =>
    intro q hq
    rw [hashAssoc] at hq
    rw [NodeWithChildren.size]
    rcases List.mem_cons.mp hq with rfl | h
    · have := NodeWithChildren.sizeL (T := T) cs
      omega
    · have := hashAssocL_keys P cs (b + 1) q h
      omega

theorem hashAssocL_keys {T : Type} (P : PayloadOps T) (cs : List (NodeWithChildren T))
    (nb : Nat) : ∀ q ∈ hashAssocL P nb cs, nb ≤ q.1 ∧ q.1 < nb + NodeWithChildren.sizeL cs := by
  cases cs with
  | nil => intro q hq; exact absurd hq (by rw [hashAssocL]; exact List.not_mem_nil q)
  | cons c cs =>
    intro q hq
    rw [hashAssocL] at hq
    rw [NodeWithChildren.sizeL]
    rcases List.mem_append.mp hq with h | h
    · have := hashAssocL_keys P cs (nb + c.size) q h
      omega
    · have := hashAssoc_keys P c nb q h
      have := NodeWithChildren.sizeL (T := T) cs
      omega

end

mutual

theorem lookup_hashAssoc {T : Type} (P : PayloadOps T) (s : NodeWithChildren T)
    (b j : Nat) (s' : NodeWithChildren T) (hm : List (Nat × Hash))
    (hget : (flattenPre s).get? j = some s') :
    List.lookup (b + j) (hashAssoc P b s ++ hm) = some (hashOfTree P s') := by
  cases s with
  | mk k x cs =>
    cases j with
    | zero =>
      have hs : s' = .mk k x cs := by
        have hx : some (NodeWithChildren.mk k x cs) = some s' := hget
        exact (Option.some.injEq _ _ ▸ hx).symm
      subst hs
      rw [hashAssoc, List.cons_append]
      exact lookup_cons_self
    | succ j =>
      have hget2 : (flattenPreL cs).get? j = some s' := hget
      rw [hashAssoc, List.cons_append, lookup_cons_ne (by omega)]
      have hx := lookup_hashAssocL P cs (b + 1) j s' hm hget2
      rwa [show (b + 1) + j = b + (j + 1) from by omega] at hx

theorem lookup_hashAssocL {T : Type} (P : PayloadOps T) (cs : List (NodeWithChildren T))
    (nb j : Nat) (s' : NodeWithChildren T) (hm : List (Nat × Hash))
    (hget : (flattenPreL cs).get? j = some s') :
    List.lookup (nb + j) (hashAssocL P nb cs ++ hm) = some (hashOfTree P s') := by
  cases cs with
  | nil => exact absurd hget (by rw [flattenPreL]; simp)
  | cons c cs =>
    rw [hashAssocL, List.append_assoc]
    by_cases hj : j < c.size
    · have hget2 : (flattenPre c).get? j = some s' := by
        rw [← flattenPreL_get_lt hj]; exact hget
      rw [lookup_skip (fun q hq => by
        have := hashAssocL_keys P cs (nb + c.size) q hq
        omega)]
      exact lookup_hashAssoc P c nb j s' hm hget2
    · have hge : c.size ≤ j := by omega
      have hget2 : (flattenPreL cs).get? (j - c.size) = some s' := by
        rw [← flattenPreL_get_ge hge]; exact hget
      have hx := lookup_hashAssocL P cs (nb + c.size) (j - c.size) s'
        (hashAssoc P nb c ++ hm) hget2
      rwa [show (nb + c.size) + (j - c.size) = nb + j from by omega] at hx

end

theorem collectEntries_append_ok {T : Type} [Inhabited T] {P : PayloadOps T}
    {g : Graph (Node T)} {hashes : List (Nat × Hash)} {pn : List Char}
    {l1 l2 : List Nat} {es1 es2 : List NodeEntry}
    (h1 : collectEntries P g hashes pn l1 = .ok es1)
    (h2 : collectEntries P g hashes pn l2 = .ok es2) :
    collectEntries P g hashes pn (l1 ++ l2) = .ok (es1 ++ es2) := by
  induction l1 generalizing es1 with
  | nil =>
    rw [collectEntries] at h1
    cases h1
    exact h2
  | cons y l1 ih =>
    rw [collectEntries] at h1
    rw [List.cons_append, collectEntries]
    rcases hl : List.lookup y hashes with _ | hv
    · rw [hl] at h1; cases h1
    · rw [hl] at h1
      rcases hr : collectEntries P g hashes pn l1 with e | es1x
      · rw [hr] at h1; cases h1
      · rw [hr] at h1
        cases h1
        rw [ih hr]
        rfl

theorem collect_childStarts {T : Type} [Inhabited T] (P : PayloadOps T)
    (g : Graph (Node T)) (cs : List (NodeWithChildren T)) (nb : Nat) (pn : List Char)
    (hashes : List (Nat × Hash))
    (hgood : GoodAtL g NodeWithChildren.toNode nb cs)
    (hlook : ∀ j s', (flattenPreL cs).get? j = some s' →
      List.lookup (nb + j) hashes = some (hashOfTree P s')) :
    collectEntries P g hashes pn ((childStarts nb cs).reverse) = .ok (entriesRevOf P cs) := by
  induction cs generalizing nb with
  | nil => rfl
  | cons c cs ih =>
    rw [childStarts, List.reverse_cons, entriesRevOf]
    have hget0 : (flattenPreL (c :: cs)).get? 0 = some c := by
      rw [flattenPreL_get_lt (size_pos c)]
      cases c with
      | mk ck cx ccs => rfl
    have hnode : g.nodeAt nb = c.toNode := by
      have hx := (hgood 0 c hget0).1
      rw [Nat.add_zero] at hx
      exact nodeAt_eq hx
    have hlook0 : List.lookup nb hashes = some (hashOfTree P c) := by
      have hx := hlook 0 c hget0
      rwa [Nat.add_zero] at hx
    have hsingle : collectEntries P g hashes pn [nb] =
        .ok [⟨c.kind, hashOfTree P c, P.name c.inner⟩] := by
      rw [collectEntries, hlook0, collectEntries, hnode]
      cases c with
      | mk ck cx ccs => rfl
    have htail : collectEntries P g hashes pn ((childStarts (nb + c.size) cs).reverse) =
        .ok (entriesRevOf P cs) := by
      apply ih (nb + c.size)
      · exact goodAtL_tail hgood
      · intro j s' hget
        have hx := hlook (c.size + j) s' (by
          rw [flattenPreL_get_ge (by omega)]
          rw [show c.size + j - c.size = j from by omega]
          exact hget)
        rwa [show nb + (c.size + j) = (nb + c.size) + j from by omega] at hx
    exact collectEntries_append_ok htail hsingle

mutual

theorem compute_subtree {T : Type} [Inhabited T] (P : PayloadOps T) (g : Graph (Node T))
    (s : NodeWithChildren T) (β : Nat) (rest : List Nat) (hm : List (Nat × Hash))
    (hgood : GoodAt g NodeWithChildren.toNode β s) :
    computeHashesLoop P g (postIdx β s ++ rest) hm =
      computeHashesLoop P g rest (hashAssoc P β s ++ hm) := by
  cases s with
  | mk k x cs =>
    rw [postIdx, List.append_assoc, List.singleton_append]
    rw [compute_forest P g cs (β + 1) (β :: rest) hm (goodAt_children hgood)]
    have hnode : g.nodeAt β = NodeWithChildren.toNode (.mk k x cs) := by
      have hx := (hgood 0 (.mk k x cs) rfl).1
      rw [Nat.add_zero] at hx
      exact nodeAt_eq hx
    have hnb : g.neighborsOut β = (childStarts (β + 1) cs).reverse := by
      have hx := (hgood 0 (.mk k x cs) rfl).2
      simpa [NodeWithChildren.children] using hx
    have hcollect := collect_childStarts P g cs (β + 1)
      (P.name (g.nodeAt β).inner) (hashAssocL P (β + 1) cs ++ hm)
      (goodAt_children hgood)
      (fun j s' hget => lookup_hashAssocL P cs (β + 1) j s' hm hget)
    simp only [computeHashesLoop, hnb, hcollect]
    have hhash : Hash.new (nodeWriteBytes P (g.nodeAt β).kind (g.nodeAt β).inner
        (entriesRevOf P cs)) = hashOfTree P (.mk k x cs) := by
      rw [hnode]
      rfl
    rw [hhash, hashAssoc, List.cons_append]

theorem compute_forest {T : Type} [Inhabited T] (P : PayloadOps T) (g : Graph (Node T))
    (cs : List (NodeWithChildren T)) (nb : Nat) (rest : List Nat) (hm : List (Nat × Hash))
    (hgood : GoodAtL g NodeWithChildren.toNode nb cs) :
    computeHashesLoop P g (postIdxL nb cs ++ rest) hm =
      computeHashesLoop P g rest (hashAssocL P nb cs ++ hm) := by
  cases cs with
  | nil => rw [postIdxL, hashAssocL]; rfl
  | cons c cs =>
    rw [postIdxL, List.append_assoc, hashAssocL, List.append_assoc]
    rw [compute_subtree P g c nb (postIdxL (nb + c.size) cs ++ rest) hm (goodAtL_head hgood)]
    exact compute_forest P g cs (nb + c.size) rest (hashAssoc P nb c ++ hm)
      (goodAtL_tail hgood)

end

theorem computeHashes_spec {T : Type} [Inhabited T] (P : PayloadOps T)
    (t : NodeWithChildren T) :
    computeHashes P (graphOfTree t) 0 = .ok (hashAssoc P 0 t) := by
  unfold computeHashes
  rw [dfsPostOrder_spec]
  have hx := compute_subtree P (graphOfTree t) t 0 [] [] (goodAt_base _ _ _ rfl rfl)
  rw [List.append_nil, List.append_nil] at hx
  rw [hx]
  rfl

theorem happendForest_nil {T : Type} (P : PayloadOps T) (g : Graph (HashedNode T)) (p : Nat) :
    happendForest P g p [] = g := by
  simp [happendForest, flattenPreL, edgesL]

theorem happendForest_cons {T : Type} (P : PayloadOps T) (g : Graph (HashedNode T)) (p : Nat)
    (c : NodeWithChildren T) (cs : List (NodeWithChildren T)) :
    happendForest P (happendSubtree P g p c) p cs = happendForest P g p (c :: cs) := by
  unfold happendForest happendSubtree
  simp only [List.length_append, List.length_map, length_flattenPre]
  rw [flattenPreL, edgesL]
  simp [List.map_append, List.append_assoc]

theorem hashedChildren_append_ok {T : Type} [Inhabited T] {P : PayloadOps T}
    {other : Graph (Node T)} {hashes : List (Nat × Hash)} {pidx : Nat}
    {l1 l2 : List Nat} {es1 es2 : List (HStackEntry T)}
    (h1 : hashedChildren P other hashes pidx l1 = .ok es1)
    (h2 : hashedChildren P other hashes pidx l2 = .ok es2) :
    hashedChildren P other hashes pidx (l1 ++ l2) = .ok (es1 ++ es2) := by
  induction l1 generalizing es1 with
  | nil =>
    rw [hashedChildren] at h1
    cases h1
    exact h2
  | cons y l1 ih =>
    rw [hashedChildren] at h1
    rw [List.cons_append, hashedChildren]
    rcases hl : List.lookup y hashes with _ | hv
    · rw [hl] at h1; cases h1
    · rw [hl] at h1
      rcases hr : hashedChildren P other hashes pidx l1 with e | es1x
      · rw [hr] at h1; cases h1
      · rw [hr] at h1
        cases h1
        rw [ih hr]
        rfl

theorem hashedChildren_childStarts {T : Type} [Inhabited T] (P : PayloadOps T)
    (other : Graph (Node T)) (hashes : List (Nat × Hash)) (pidx : Nat)
    (cs : List (NodeWithChildren T)) (nb : Nat)
    (hgood : GoodAtL other NodeWithChildren.toNode nb cs)
    (hlook : ∀ j s', (flattenPreL cs).get? j = some s' →
      List.lookup (nb + j) hashes = some (hashOfTree P s')) :
    hashedChildren P other hashes pidx ((childStarts nb cs).reverse) =
      .ok ((hItems P pidx nb cs).reverse) := by
  induction cs generalizing nb with
  | nil => rfl
  | cons c cs ih =>
    rw [childStarts, List.reverse_cons, hItems, List.reverse_cons]
    have hget0 : (flattenPreL (c :: cs)).get? 0 = some c := by
      rw [flattenPreL_get_lt (size_pos c)]
      cases c with
      | mk ck cx ccs => rfl
    have hnode : other.nodeAt nb = c.toNode := by
      have hx := (hgood 0 c hget0).1
      rw [Nat.add_zero] at hx
      exact nodeAt_eq hx
    have hlook0 : List.lookup nb hashes = some (hashOfTree P c) := by
      have hx := hlook 0 c hget0
      rwa [Nat.add_zero] at hx
    have hsingle : hashedChildren P other hashes pidx [nb] =
        .ok [⟨hashedNodeOf P c, nb, some pidx⟩] := by
      rw [hashedChildren, hlook0, hashedChildren, hnode]
      cases c with
      | mk ck cx ccs => rfl
    have htail : hashedChildren P other hashes pidx ((childStarts (nb + c.size) cs).reverse) =
        .ok ((hItems P pidx (nb + c.size) cs).reverse) := by
      apply ih (nb + c.size)
      · exact goodAtL_tail hgood
      · intro j s' hget
        have hx := hlook (c.size + j) s' (by
          rw [flattenPreL_get_ge (by omega)]
          rw [show c.size + j - c.size = j from by omega]
          exact hget)
        rwa [show nb + (c.size + j) = (nb + c.size) + j from by omega] at hx
    exact hashedChildren_append_ok htail hsingle

mutual

theorem hashedLoop_subtree {T : Type} [Inhabited T] (P : PayloadOps T)
    (other : Graph (Node T)) (hashes : List (Nat × Hash)) (s : NodeWithChildren T)
    (β fuel p : Nat) (rest : List (HStackEntry T)) (g : Graph (HashedNode T)) (r : Option Nat)
    (hgood : GoodAt other NodeWithChildren.toNode β s)
    (hlook : ∀ j s', (flattenPre s).get? j = some s' →
      List.lookup (β + j) hashes = some (hashOfTree P s')) :
    createHashedLoop P other hashes (s.size + fuel)
        (⟨hashedNodeOf P s, β, some p⟩ :: rest) g r =
      createHashedLoop P other hashes fuel rest (happendSubtree P g p s) r := by
  cases s with
  | mk k x cs =>
    have harith : (NodeWithChildren.mk k x cs).size + fuel
        = (NodeWithChildren.sizeL cs + fuel) + 1 := by
      rw [NodeWithChildren.size]; omega
    rw [harith]
    have hnb : other.neighborsOut β = (childStarts (β + 1) cs).reverse := by
      have hx := (hgood 0 (.mk k x cs) rfl).2
      simpa [NodeWithChildren.children] using hx
    have hchildren := hashedChildren_childStarts P other hashes g.nodes.length cs (β + 1)
      (goodAt_children hgood)
      (by
        intro j s' hget
        have hx := hlook (1 + j) s' (by
          have : (flattenPre (NodeWithChildren.mk k x cs)).get? (1 + j)
              = (flattenPreL cs).get? j := by
            rw [show 1 + j = j + 1 from by omega]
            rfl
          rw [this]
          exact hget)
        rwa [show β + (1 + j) = (β + 1) + j from by omega] at hx)
    simp only [createHashedLoop, Graph.addNode, hnb, hchildren, List.reverse_reverse]
    rw [hashedLoop_forest P other hashes cs (β + 1) fuel g.nodes.length rest _ r
      (goodAt_children hgood)
      (by
        intro j s' hget
        have hx := hlook (1 + j) s' (by
          have : (flattenPre (NodeWithChildren.mk k x cs)).get? (1 + j)
              = (flattenPreL cs).get? j := by
            rw [show 1 + j = j + 1 from by omega]
            rfl
          rw [this]
          exact hget)
        rwa [show β + (1 + j) = (β + 1) + j from by omega] at hx)]
    congr 1
    unfold happendForest happendSubtree Graph.addEdge
    simp [flattenPre, edgesFrom, hashedNodeOf, NodeWithChildren.kind,
      NodeWithChildren.inner]

theorem hashedLoop_forest {T : Type} [Inhabited T] (P : PayloadOps T)
    (other : Graph (Node T)) (hashes : List (Nat × Hash)) (cs : List (NodeWithChildren T))
    (nb fuel p : Nat) (rest : List (HStackEntry T)) (g : Graph (HashedNode T)) (r : Option Nat)
    (hgood : GoodAtL other NodeWithChildren.toNode nb cs)
    (hlook : ∀ j s', (flattenPreL cs).get? j = some s' →
      List.lookup (nb + j) hashes = some (hashOfTree P s')) :
    createHashedLoop P other hashes (NodeWithChildren.sizeL cs + fuel)
        ((hItems P p nb cs) ++ rest) g r =
      createHashedLoop P other hashes fuel rest (happendForest P g p cs) r := by
  cases cs with
  | nil =>
    rw [NodeWithChildren.sizeL, hItems, happendForest_nil]
    simp
  | cons c cs =>
    have harith : NodeWithChildren.sizeL (c :: cs) + fuel
        = c.size + (NodeWithChildren.sizeL cs + fuel) := by
      rw [NodeWithChildren.sizeL]; omega
    rw [harith, hItems, List.cons_append]
    rw [hashedLoop_subtree P other hashes c nb (NodeWithChildren.sizeL cs + fuel) p
      (hItems P p (nb + c.size) cs ++ rest) g r
      (goodAtL_head hgood)
      (by
        intro j s' hget
        have hj : j < c.size := get_flattenPre_lt hget
        exact hlook j s' (by rw [flattenPreL_get_lt hj]; exact hget))]
    rw [hashedLoop_forest P other hashes cs (nb + c.size) fuel p rest
      (happendSubtree P g p c) r
      (goodAtL_tail hgood)
      (by
        intro j s' hget
        have hx := hlook (c.size + j) s' (by
          rw [flattenPreL_get_ge (by omega)]
          rw [show c.size + j - c.size = j from by omega]
          exact hget)
        rwa [show nb + (c.size + j) = (nb + c.size) + j from by omega] at hx)]
    rw [happendForest_cons]

end

theorem lookup_hashAssoc_nil {T : Type} (P : PayloadOps T) (s : NodeWithChildren T)
    (b j : Nat) (s' : NodeWithChildren T)
    (hget : (flattenPre s).get? j = some s') :
    List.lookup (b + j) (hashAssoc P b s) = some (hashOfTree P s') := by
  have hx := lookup_hashAssoc P s b j s' [] hget
  rwa [List.append_nil] at hx

theorem createHashedTree_spec {T : Type} [Inhabited T] (P : PayloadOps T)
    (t : NodeWithChildren T) :
    createHashedTree P (graphOfTree t) (hashAssoc P 0 t) 0 =
      some (.ok ⟨hashedGraphOfTree P t, 0⟩) := by
  cases t with
  | mk k x cs =>
    have hgood := goodAt_base (graphOfTree (NodeWithChildren.mk k x cs))
      NodeWithChildren.toNode (NodeWithChildren.mk k x cs) rfl rfl
    have hlen : (graphOfTree (NodeWithChildren.mk k x cs)).nodes.length
        = (NodeWithChildren.mk k x cs).size := by
      unfold graphOfTree
      simp [length_flattenPre]
    have harith : (NodeWithChildren.mk k x cs).size + 1
        = (NodeWithChildren.sizeL cs + 1) + 1 := by
      rw [NodeWithChildren.size]; omega
    have hnb : (graphOfTree (NodeWithChildren.mk k x cs)).neighborsOut 0
        = (childStarts 1 cs).reverse := by
      have hx := (hgood 0 (.mk k x cs) rfl).2
      simpa [NodeWithChildren.children] using hx
    have hchildren := hashedChildren_childStarts P
      (graphOfTree (NodeWithChildren.mk k x cs)) (hashAssoc P 0 (NodeWithChildren.mk k x cs))
      0 cs 1
      (goodAt_children hgood)
      (by
        intro j s' hget
        have hx := lookup_hashAssoc_nil P (NodeWithChildren.mk k x cs) 0 (j + 1) s' hget
        rwa [show (0 : Nat) + (j + 1) = 1 + j from by omega] at hx)
    unfold createHashedTree
    rw [show hashAssoc P 0 (NodeWithChildren.mk k x cs)
        = (0, hashOfTree P (NodeWithChildren.mk k x cs))
          :: hashAssocL P 1 cs from by rw [hashAssoc]]
    simp only [lookup_cons_self]
    rw [hlen, harith]
    simp only [createHashedLoop, Graph.addNode, Graph.empty, List.length_nil,
      List.nil_append, hnb]
    rw [show ((0, hashOfTree P (NodeWithChildren.mk k x cs)) :: hashAssocL P 1 cs)
        = hashAssoc P 0 (NodeWithChildren.mk k x cs) from by rw [hashAssoc]]
    simp only [hchildren, List.reverse_reverse]
    rw [hashedLoop_forest P (graphOfTree (NodeWithChildren.mk k x cs))
      (hashAssoc P 0 (NodeWithChildren.mk k x cs)) cs 1 1 0 []
      _ (some 0)
      (goodAt_children hgood)
      (by
        intro j s' hget
        have hx := lookup_hashAssoc_nil P (NodeWithChildren.mk k x cs) 0 (j + 1) s' hget
        rwa [show (0 : Nat) + (j + 1) = 1 + j from by omega] at hx)]
    have hg : happendForest P
        ⟨[⟨((graphOfTree (NodeWithChildren.mk k x cs)).nodeAt 0).kind,
           hashOfTree P (NodeWithChildren.mk k x cs),
           ((graphOfTree (NodeWithChildren.mk k x cs)).nodeAt 0).inner⟩], []⟩ 0 cs
        = hashedGraphOfTree P (NodeWithChildren.mk k x cs) := by
      unfold happendForest hashedGraphOfTree
      simp [flattenPre, edgesFrom, hashedNodeOf, NodeWithChildren.kind,
        NodeWithChildren.inner]
      exact ⟨rfl, rfl⟩
    rw [hg]
    rfl

theorem createFromRoot_master {T : Type} [Inhabited T] (P : PayloadOps T)
    (t : NodeWithChildren T) :
    ObjectTree.createFromRoot P t = some (.ok ⟨hashedGraphOfTree P t, 0⟩) := by
  unfold ObjectTree.createFromRoot
  rw [createFromRoot_spec]
  show hashTree P (graphOfTree t) 0 = some (.ok ⟨hashedGraphOfTree P t, 0⟩)
  unfold hashTree
  rw [computeHashes_spec]
  show createHashedTree P (graphOfTree t) (hashAssoc P 0 t) 0
    = some (.ok ⟨hashedGraphOfTree P t, 0⟩)
  exact createHashedTree_spec P t

mutual

theorem flattenPre_size_le {T : Type} (t : NodeWithChildren T) (i : Nat)
    (s' : NodeWithChildren T) (h : (flattenPre t).get? i = some s') :
    i + s'.size ≤ t.size := by
  cases t with
  | mk k x cs =>
    cases i with
    | zero =>
      have hs : s' = .mk k x cs := by
        have hx : some (NodeWithChildren.mk k x cs) = some s' := h
        exact (Option.some.injEq _ _ ▸ hx).symm
      subst hs
      omega
    | succ i =>
      have h2 : (flattenPreL cs).get? i = some s' := h
      have := flattenPreL_size_le cs i s' h2
      rw [NodeWithChildren.size]
      omega

theorem flattenPreL_size_le {T : Type} (cs : List (NodeWithChildren T)) (i : Nat)
    (s' : NodeWithChildren T) (h : (flattenPreL cs).get? i = some s') :
    i + s'.size ≤ NodeWithChildren.sizeL cs := by
  cases cs with
  | nil => exact absurd h (by rw [flattenPreL]; simp)
  | cons c cs =>
    rw [NodeWithChildren.sizeL]
    by_cases hi : i < c.size
    · have h2 : (flattenPre c).get? i = some s' := by
        rw [← flattenPreL_get_lt hi]; exact h
      have := flattenPre_size_le c i s' h2
      omega
    · have h2 : (flattenPreL cs).get? (i - c.size) = some s' := by
        rw [← flattenPreL_get_ge (by omega)]; exact h
      have := flattenPreL_size_le cs (i - c.size) s' h2
      omega

end

mutual

theorem flattenPre_nested {T : Type} (t : NodeWithChildren T) (i j : Nat)
    (s' s'' : NodeWithChildren T) (h1 : (flattenPre t).get? i = some s')
    (h2 : (flattenPre s').get? j = some s'') :
    (flattenPre t).get? (i + j) = some s'' := by
  cases t with
  | mk k x cs =>
    cases i with
    | zero =>
      have hs : s' = .mk k x cs := by
        have hx : some (NodeWithChildren.mk k x cs) = some s' := h1
        exact (Option.some.injEq _ _ ▸ hx).symm
      subst hs
      simpa using h2
    | succ i =>
      have h1x : (flattenPreL cs).get? i = some s' := h1
      have hx := flattenPreL_nested cs i j s' s'' h1x h2
      have harith : i + 1 + j = (i + j) + 1 := by omega
      rw [harith]
      exact hx

theorem flattenPreL_nested {T : Type} (cs : List (NodeWithChildren T)) (i j : Nat)
    (s' s'' : NodeWithChildren T) (h1 : (flattenPreL cs).get? i = some s')
    (h2 : (flattenPre s').get? j = some s'') :
    (flattenPreL cs).get? (i + j) = some s'' := by
  cases cs with
  | nil => exact absurd h1 (by rw [flattenPreL]; simp)
  | cons c cs =>
    by_cases hi : i < c.size
    · have h1x : (flattenPre c).get? i = some s' := by
        rw [← flattenPreL_get_lt hi]; exact h1
      have hfit := flattenPre_size_le c i s' h1x
      have hj := get_flattenPre_lt h2
      have hij : i + j < c.size := by omega
      rw [flattenPreL_get_lt hij]
      exact flattenPre_nested c i j s' s'' h1x h2
    · have h1x : (flattenPreL cs).get? (i - c.size) = some s' := by
        rw [← flattenPreL_get_ge (by omega)]; exact h1
      have hx := flattenPreL_nested cs (i - c.size) j s' s'' h1x h2
      rw [flattenPreL_get_ge (by omega : c.size ≤ i + j)]
      rwa [show i + j - c.size = (i - c.size) + j from by omega]

end

theorem goodAt_subtree {α T : Type} {g : Graph α} {nodeOf : NodeWithChildren T → α}
    {t s' : NodeWithChildren T} {i : Nat}
    (hbase : GoodAt g nodeOf 0 t) (hget : (flattenPre t).get? i = some s') :
    GoodAt g nodeOf i s' := by
  intro j s'' hget2
  have hx := hbase (i + j) s'' (flattenPre_nested t i j s' s'' hget hget2)
  rwa [Nat.zero_add] at hx

theorem flattenPre_get_self {T : Type} (t : NodeWithChildren T) :
    (flattenPre t).get? 0 = some t := by
  cases t with
  | mk k x cs => rfl

theorem childEntries_spec {T : Type} [Inhabited T] (P : PayloadOps T)
    (g : Graph (HashedNode T)) (cs : List (NodeWithChildren T)) (nb : Nat)
    (hgood : GoodAtL g (hashedNodeOf P) nb cs) :
    ((childStarts nb cs).reverse).map
        (fun j => (⟨(g.nodeAt j).kind, (g.nodeAt j).hash, P.name (g.nodeAt j).inner⟩ :
          NodeEntry)) = entriesRevOf P cs := by
  induction cs generalizing nb with
  | nil => rfl
  | cons c cs ih =>
    rw [childStarts, List.reverse_cons, entriesRevOf, List.map_append]
    have hget0 : (flattenPreL (c :: cs)).get? 0 = some c := by
      rw [flattenPreL_get_lt (size_pos c)]
      exact flattenPre_get_self c
    have hnode : g.nodeAt nb = hashedNodeOf P c := by
      have hx := (hgood 0 c hget0).1
      rw [Nat.add_zero] at hx
      exact nodeAt_eq hx
    rw [ih (nb + c.size) (goodAtL_tail hgood)]
    simp [hnode, hashedNodeOf]

/-- Claim C9: for every input tree whatsoever, `ObjectTree::create_from_root`
never returns `MultipleRootNode` and never returns `MissingRootNode` — the
traversal stack starts with exactly one node carrying no parent index and
every pushed child carries a parent index, so the root is recorded exactly
once and these error branches are unreachable through the public API (the
same holds for the internal `HashingTree::create_from_root`). -/
theorem claim9_theorem {T : Type} [Inhabited T] (P : PayloadOps T)
    (t : NodeWithChildren T) :
    ObjectTree.createFromRoot P t ≠ some (.error .MultipleRootNode) ∧
    ObjectTree.createFromRoot P t ≠ some (.error .MissingRootNode) ∧
    HashingTree.createFromRoot t ≠ some (.error .MultipleRootNode) ∧
    HashingTree.createFromRoot t ≠ some (.error .MissingRootNode) := by
  refine ⟨?_, ?_, ?_, ?_⟩
  · rw [createFromRoot_master]; simp
  · rw [createFromRoot_master]; simp
  · rw [createFromRoot_spec]; simp
  · rw [createFromRoot_spec]; simp

/-- Claim C6: during hash computation over a graph built by
`HashingTree::create_from_root`, at the moment each node is visited in
depth-first post-order every direct child already has a computed hash, so
the hashing pass succeeds and never returns the `UnhashedChild` error. -/
theorem claim6_theorem {T : Type} [Inhabited T] (P : PayloadOps T)
    (t : NodeWithChildren T) (g : Graph (Node T)) (r : Nat)
    (hcreate : HashingTree.createFromRoot t = some (.ok (g, r))) :
    (∃ hm, computeHashes P g r = .ok hm) ∧
    ∀ pn cn, computeHashes P g r ≠ .error (.UnhashedChild pn cn) := by
  rw [createFromRoot_spec] at hcreate
  simp only [Option.some.injEq, Except.ok.injEq, Prod.mk.injEq] at hcreate
  obtain ⟨hg, hr⟩ := hcreate
  subst hg
  subst hr
  refine ⟨⟨hashAssoc P 0 t, computeHashes_spec P t⟩, ?_⟩
  intro pn cn
  rw [computeHashes_spec]
  simp

/-- Witness for C6 at a concrete tree. -/
theorem claim6_witness :
    (∃ hm, computeHashes propOps (graphOfTree exTreeS2) 0 = .ok hm) ∧
    ∀ pn cn, computeHashes propOps (graphOfTree exTreeS2) 0 ≠
      .error (.UnhashedChild pn cn) :=
  claim6_theorem propOps exTreeS2 (graphOfTree exTreeS2) 0
    (createFromRoot_spec exTreeS2)

theorem hashedGraph_node_facts {T : Type} [Inhabited T] (P : PayloadOps T)
    (t : NodeWithChildren T) {i : Nat} {s' : NodeWithChildren T}
    (hget : (flattenPre t).get? i = some s') :
    (hashedGraphOfTree P t).nodeAt i = hashedNodeOf P s' ∧
    childEntriesAt P (hashedGraphOfTree P t) i = entriesRevOf P s'.children := by
  have hbase := goodAt_base (hashedGraphOfTree P t) (hashedNodeOf P) t rfl rfl
  have hsub := goodAt_subtree hbase hget
  have hself := hsub 0 s' (flattenPre_get_self s')
  rw [Nat.add_zero] at hself
  refine ⟨nodeAt_eq hself.1, ?_⟩
  unfold childEntriesAt
  rw [hself.2]
  cases s' with
  | mk k x cs => exact childEntries_spec P _ cs (i + 1) (goodAt_children hsub)

/-- Claim C1: for every tree accepted by `ObjectTree::create_from_root`,
every node of the resulting object tree stores exactly the hash of its
canonical serialization built from its direct-child entries (each entry
carrying the child's kind, computed hash and name), and consequently
`verify_hash` on every such node returns `Ok`. -/
theorem claim1_theorem {T : Type} [Inhabited T] (P : PayloadOps T)
    (t : NodeWithChildren T) (ot : ObjectTree T)
    (hok : ObjectTree.createFromRoot P t = some (.ok ot))
    (i : Nat) (hi : i < ot.graph.nodes.length) :
    (ot.graph.nodeAt i).hash =
      Hash.new (nodeWriteBytes P (ot.graph.nodeAt i).kind (ot.graph.nodeAt i).inner
        (childEntriesAt P ot.graph i)) ∧
    (nodeViewAt P ot i).verifyHash P = .ok () := by
  rw [createFromRoot_master] at hok
  have hok2 : ObjectTree.mk (hashedGraphOfTree P t) 0 = ot := by simpa using hok
  subst hok2
  have hi' : i < (flattenPre t).length := by
    simpa [hashedGraphOfTree] using hi
  obtain ⟨s', hget⟩ : ∃ s', (flattenPre t).get? i = some s' :=
    ⟨(flattenPre t).get ⟨i, hi'⟩, List.get?_eq_get hi'⟩
  obtain ⟨hnode, hentries⟩ := hashedGraph_node_facts P t hget
  have hgoal1 : ((hashedGraphOfTree P t).nodeAt i).hash =
      Hash.new (nodeWriteBytes P ((hashedGraphOfTree P t).nodeAt i).kind
        ((hashedGraphOfTree P t).nodeAt i).inner
        (childEntriesAt P (hashedGraphOfTree P t) i)) := by
    rw [hnode, hentries]
    cases s' with
    | mk k x cs => rfl
  refine ⟨hgoal1, ?_⟩
  show HashedNodeWithEntries.verifyHash P
    (nodeViewAt P ⟨hashedGraphOfTree P t, 0⟩ i) = .ok ()
  simp only [HashedNodeWithEntries.verifyHash, HashedNodeWithEntries.toBytes, nodeViewAt]
  rw [if_pos hgoal1]

/-- Witness for C1: node 1 of the object tree built from the concrete
two-child tree stores the hash of its serialization and verifies. -/
theorem claim1_witness :
    ((⟨hashedGraphOfTree propOps exTreeS2, 0⟩ : ObjectTree PropPayload).graph.nodeAt 1).hash =
      Hash.new (nodeWriteBytes propOps
        ((⟨hashedGraphOfTree propOps exTreeS2, 0⟩ :
          ObjectTree PropPayload).graph.nodeAt 1).kind
        ((⟨hashedGraphOfTree propOps exTreeS2, 0⟩ :
          ObjectTree PropPayload).graph.nodeAt 1).inner
        (childEntriesAt propOps
          (⟨hashedGraphOfTree propOps exTreeS2, 0⟩ : ObjectTree PropPayload).graph 1)) ∧
    (nodeViewAt propOps
      (⟨hashedGraphOfTree propOps exTreeS2, 0⟩ : ObjectTree PropPayload) 1).verifyHash
        propOps = .ok () :=
  claim1_theorem propOps exTreeS2 ⟨hashedGraphOfTree propOps exTreeS2, 0⟩
    (createFromRoot_master propOps exTreeS2) 1 (by decide)

mutual

theorem leavesChildless_get {T : Type} (t : NodeWithChildren T) (i : Nat)
    (s' : NodeWithChildren T) (hw : leavesChildless t = true)
    (h : (flattenPre t).get? i = some s') : leavesChildless s' = true := by
  cases t with
  | mk k x cs =>
    cases i with
    | zero =>
      have hs : s' = .mk k x cs := by
        have hx : some (NodeWithChildren.mk k x cs) = some s' := h
        exact (Option.some.injEq _ _ ▸ hx).symm
      subst hs
      exact hw
    | succ i =>
      rw [leavesChildless, Bool.and_eq_true] at hw
      exact leavesChildlessL_get cs i s' hw.2 h

theorem leavesChildlessL_get {T : Type} (cs : List (NodeWithChildren T)) (i : Nat)
    (s' : NodeWithChildren T) (hw : leavesChildlessL cs = true)
    (h : (flattenPreL cs).get? i = some s') : leavesChildless s' = true := by
  cases cs with
  | nil => exact absurd h (by rw [flattenPreL]; simp)
  | cons c cs =>
    rw [leavesChildlessL, Bool.and_eq_true] at hw
    by_cases hi : i < c.size
    · exact leavesChildless_get c i s' hw.1 (by
        rw [← flattenPreL_get_lt hi]; exact h)
    · exact leavesChildlessL_get cs (i - c.size) s' hw.2 (by
        rw [← flattenPreL_get_ge (by omega)]; exact h)

end

theorem leaf_children_nil {T : Type} {k : NodeKind} {x : T}
    {cs : List (NodeWithChildren T)}
    (hw : leavesChildless (.mk k x cs) = true) (hk : k = .leaf) : cs = [] := by
  subst hk
  rw [leavesChildless, Bool.and_eq_true, Bool.or_eq_true] at hw
  rcases hw.1 with hx | hx
  · exact absurd (of_decide_eq_true hx) (by intro hc; cases hc)
  · exact List.isEmpty_iff.mp hx

/-- Claim C5 (amended): in every object tree built by
`ObjectTree::create_from_root` from an input in which `Leaf` nodes carry
no children, every node whose kind is `Leaf` has out-degree 0 in the
graph. (The unconditional version is refuted: `create_from_root` pushes
whatever children the caller attached, without consulting the kind.) -/
theorem claim5_theorem {T : Type} [Inhabited T] (P : PayloadOps T)
    (t : NodeWithChildren T) (ot : ObjectTree T)
    (hwf : leavesChildless t = true)
    (hok : ObjectTree.createFromRoot P t = some (.ok ot))
    (i : Nat) (hi : i < ot.graph.nodes.length)
    (hleaf : (ot.graph.nodeAt i).kind = .leaf) :
    ot.graph.outDegree i = 0 := by
  rw [createFromRoot_master] at hok
  have hok2 : ObjectTree.mk (hashedGraphOfTree P t) 0 = ot := by simpa using hok
  subst hok2
  have hi' : i < (flattenPre t).length := by
    simpa [hashedGraphOfTree] using hi
  obtain ⟨s', hget⟩ : ∃ s', (flattenPre t).get? i = some s' :=
    ⟨(flattenPre t).get ⟨i, hi'⟩, List.get?_eq_get hi'⟩
  obtain ⟨hnode, _⟩ := hashedGraph_node_facts P t hget
  have hod : (hashedGraphOfTree P t).outDegree i = s'.children.length :=
    outDegree_of_edges _ t rfl hget
  have hkind : s'.kind = .leaf := by
    have hx : ((hashedGraphOfTree P t).nodeAt i).kind = .leaf := hleaf
    rw [hnode] at hx
    exact hx
  have hlc := leavesChildless_get t i s' hwf hget
  show (hashedGraphOfTree P t).outDegree i = 0
  rw [hod]
  cases s' with
  | mk k x cs =>
    have hnil : cs = [] := leaf_children_nil hlc hkind
    rw [show (NodeWithChildren.mk k x cs).children = cs from rfl, hnil]
    rfl

/-- Counterexample to C5 as stated: a `Leaf` root to which the caller
attached a child keeps that outgoing edge in the built object tree, so
its out-degree is 1, not 0 — the `regardless of what children the caller
attached` clause fails. -/
theorem claim5_counterexample :
    ObjectTree.createFromRoot propOps exLeafWithChild =
      some (.ok ⟨hashedGraphOfTree propOps exLeafWithChild, 0⟩) ∧
    ((hashedGraphOfTree propOps exLeafWithChild).nodeAt 0).kind = .leaf ∧
    (hashedGraphOfTree propOps exLeafWithChild).outDegree 0 = 1 :=
  ⟨createFromRoot_master propOps exLeafWithChild, by decide, by decide⟩

/-- Witness for the amended C5 at a concrete well-formed tree: node 1 is
a leaf of the built object tree and has out-degree 0. -/
theorem claim5_witness :
    leavesChildless exTreeS2 = true ∧
    (⟨hashedGraphOfTree propOps exTreeS2, 0⟩ : ObjectTree PropPayload).graph.outDegree 1 = 0 :=
  ⟨by decide, claim5_theorem propOps exTreeS2 ⟨hashedGraphOfTree propOps exTreeS2, 0⟩
    (by decide) (createFromRoot_master propOps exTreeS2) 1 (by decide) (by decide)⟩

theorem permTree_kind_inner {T : Type} {a b : NodeWithChildren T} (h : PermTree a b) :
    a.kind = b.kind ∧ a.inner = b.inner := by
  induction h with
  | refl t => exact ⟨rfl, rfl⟩
  | perm k x cs cs' hp => exact ⟨rfl, rfl⟩
  | congr k x pre post c c' hcc ih => exact ⟨rfl, rfl⟩
  | trans a2 b2 c2 h1 h2 ih1 ih2 => exact ⟨ih1.1.trans ih2.1, ih1.2.trans ih2.2⟩

theorem sorted_nodup_unique {l1 l2 : List NodeEntry} (hperm : l1.Perm l2)
    (hs1 : List.Sorted entryLe l1) (hs2 : List.Sorted entryLe l2)
    (hnd : (l1.map NodeEntry.name).Nodup) : l1 = l2 := by
  induction l1 generalizing l2 with
  | nil => exact (List.Perm.eq_nil hperm.symm).symm
  | cons a rest ih =>
    cases l2 with
    | nil => exact absurd (List.Perm.eq_nil hperm) (by simp)
    | cons b rest2 =>
      have hab : a = b := by
        by_contra hne
        have ha2 : a ∈ b :: rest2 := hperm.mem_iff.mp (List.mem_cons_self a rest)
        have hb1 : b ∈ a :: rest := hperm.mem_iff.mpr (List.mem_cons_self b rest2)
        have ha2x : a ∈ rest2 := by
          rcases List.mem_cons.mp ha2 with hx | hx
          · exact absurd hx hne
          · exact hx
        have hb1x : b ∈ rest := by
          rcases List.mem_cons.mp hb1 with hx | hx
          · exact absurd hx.symm hne
          · exact hx
        have hle1 : entryLe a b := (List.sorted_cons.mp hs1).1 b hb1x
        have hle2 : entryLe b a := (List.sorted_cons.mp hs2).1 a ha2x
        have hname : a.name = b.name := bytesLe_antisymm hle1 hle2
        rw [List.map_cons, List.nodup_cons] at hnd
        exact hnd.1 (by rw [hname]; exact List.mem_map_of_mem NodeEntry.name hb1x)
      subst hab
      have hperm2 : rest.Perm rest2 := List.Perm.cons_inv hperm
      rw [List.map_cons, List.nodup_cons] at hnd
      rw [ih hperm2 (List.sorted_cons.mp hs1).2 (List.sorted_cons.mp hs2).2 hnd.2]

theorem sortEntries_perm_eq {es es' : List NodeEntry} (hperm : es.Perm es')
    (hnd : (es.map NodeEntry.name).Nodup) : sortEntries es = sortEntries es' := by
  have h1 : (sortEntries es).Perm (sortEntries es') :=
    (sortEntries_perm es).trans (hperm.trans (sortEntries_perm es').symm)
  refine sorted_nodup_unique h1 (sortEntries_sorted es) (sortEntries_sorted es') ?_
  have h2 : ((sortEntries es).map NodeEntry.name).Perm (es.map NodeEntry.name) :=
    (sortEntries_perm es).map NodeEntry.name
  exact h2.nodup_iff.mpr hnd

theorem entriesRevOf_eq_map {T : Type} (P : PayloadOps T)
    (cs : List (NodeWithChildren T)) :
    entriesRevOf P cs = (cs.map (childEntryOf P)).reverse := by
  induction cs with
  | nil => rfl
  | cons c cs ih =>
    rw [entriesRevOf, ih, List.map_cons, List.reverse_cons]
    rfl

theorem entriesRevOf_names {T : Type} (P : PayloadOps T)
    (cs : List (NodeWithChildren T)) :
    (entriesRevOf P cs).map NodeEntry.name =
      (cs.map (fun c => P.name c.inner)).reverse := by
  rw [entriesRevOf_eq_map, List.map_reverse, List.map_map]
  rfl

theorem distinctNamesL_mem {T : Type} {P : PayloadOps T}
    {cs : List (NodeWithChildren T)} (h : distinctNamesL P cs = true)
    {c : NodeWithChildren T} (hc : c ∈ cs) : distinctNames P c = true := by
  induction cs with
  | nil => cases hc
  | cons d cs ih =>
    rw [distinctNamesL, Bool.and_eq_true] at h
    rcases List.mem_cons.mp hc with h1 | h1
    · rw [h1]; exact h.1
    · exact ih h.2 h1

theorem distinctNamesL_of_all {T : Type} {P : PayloadOps T}
    {cs : List (NodeWithChildren T)}
    (h : ∀ c ∈ cs, distinctNames P c = true) : distinctNamesL P cs = true := by
  induction cs with
  | nil => rfl
  | cons d cs ih =>
    rw [distinctNamesL, Bool.and_eq_true]
    exact ⟨h d (List.mem_cons_self d cs),
      ih (fun c hc => h c (List.mem_cons.mpr (Or.inr hc)))⟩

theorem distinctNamesL_perm {T : Type} {P : PayloadOps T}
    {cs cs' : List (NodeWithChildren T)} (hp : cs.Perm cs')
    (h : distinctNamesL P cs = true) : distinctNamesL P cs' = true :=
  distinctNamesL_of_all (fun c hc => distinctNamesL_mem h (hp.mem_iff.mpr hc))

theorem permTree_distinct {T : Type} (P : PayloadOps T) {a b : NodeWithChildren T}
    (h : PermTree a b) :
    distinctNames P a = true → distinctNames P b = true := by
  induction h with
  | refl t => exact id
  | perm k x cs cs' hp =>
    intro hd
    rw [distinctNames, Bool.and_eq_true] at hd ⊢
    refine ⟨?_, distinctNamesL_perm hp hd.2⟩
    have hnp : (cs.map (fun c => P.name c.inner)).Perm
        (cs'.map (fun c => P.name c.inner)) := hp.map _
    exact decide_eq_true (hnp.nodup_iff.mp (of_decide_eq_true hd.1))
  | congr k x pre post c c' hcc ih =>
    intro hd
    rw [distinctNames, Bool.and_eq_true] at hd ⊢
    have hnames : c'.inner = c.inner := (permTree_kind_inner hcc).2.symm
    constructor
    · have hmapeq : (pre ++ c' :: post).map (fun d => P.name d.inner)
          = (pre ++ c :: post).map (fun d => P.name d.inner) := by
        rw [List.map_append, List.map_append, List.map_cons, List.map_cons, hnames]
      rw [hmapeq]
      exact hd.1
    · refine distinctNamesL_of_all ?_
      intro d hdmem
      rcases List.mem_append.mp hdmem with h1 | h1
      · exact distinctNamesL_mem hd.2 (List.mem_append.mpr (Or.inl h1))
      · rcases List.mem_cons.mp h1 with h2 | h2
        · rw [h2]
          exact ih (distinctNamesL_mem hd.2
            (List.mem_append.mpr (Or.inr (List.mem_cons_self c post))))
        · exact distinctNamesL_mem hd.2
            (List.mem_append.mpr (Or.inr (List.mem_cons.mpr (Or.inr h2))))
  | trans a2 b2 c2 h1 h2 ih1 ih2 => exact fun hd => ih2 (ih1 hd)

theorem hashOfTree_eq_new {T : Type} (P : PayloadOps T) (t : NodeWithChildren T) :
    hashOfTree P t = Hash.new (rootBytesOf P t) := by
  cases t with
  | mk k x cs => rfl

theorem entryBlock_congr {es es' : List NodeEntry} (hp : es.Perm es')
    (hs : sortEntries es = sortEntries es') : entryBlock es = entryBlock es' := by
  have hie : es.isEmpty = es'.isEmpty := by
    cases es with
    | nil => rw [List.Perm.eq_nil hp.symm]
    | cons a tl =>
      cases es' with
      | nil => exact absurd (List.Perm.eq_nil hp) (by simp)
      | cons b tl2 => rfl
  unfold entryBlock
  rw [hs, hie]

theorem permTree_bytes {T : Type} (P : PayloadOps T) {a b : NodeWithChildren T}
    (h : PermTree a b) :
    distinctNames P a = true → rootBytesOf P a = rootBytesOf P b := by
  induction h with
  | refl t => exact fun _ => rfl
  | perm k x cs cs' hp =>
    intro hd
    rw [distinctNames, Bool.and_eq_true] at hd
    have hep : (entriesRevOf P cs).Perm (entriesRevOf P cs') := by
      rw [entriesRevOf_eq_map, entriesRevOf_eq_map]
      exact (List.reverse_perm _).trans
        ((hp.map (childEntryOf P)).trans (List.reverse_perm _).symm)
    have hnd : ((entriesRevOf P cs).map NodeEntry.name).Nodup := by
      rw [entriesRevOf_names]
      exact List.nodup_reverse.mpr (of_decide_eq_true hd.1)
    have hb : entryBlock (entriesRevOf P cs) = entryBlock (entriesRevOf P cs') :=
      entryBlock_congr hep (sortEntries_perm_eq hep hnd)
    show writeHeaderBytes k (P.objectKind x) ++ '\n' :: P.writeBytes x ++
        entryBlock (entriesRevOf P cs)
      = writeHeaderBytes k (P.objectKind x) ++ '\n' :: P.writeBytes x ++
        entryBlock (entriesRevOf P cs')
    rw [hb]
  | congr k x pre post c c' hcc ih =>
    intro hd
    rw [distinctNames, Bool.and_eq_true] at hd
    have hdc : distinctNames P c = true :=
      distinctNamesL_mem hd.2 (List.mem_append.mpr (Or.inr (List.mem_cons_self c post)))
    have hhash : hashOfTree P c = hashOfTree P c' := by
      rw [hashOfTree_eq_new, hashOfTree_eq_new, ih hdc]
    have hki := permTree_kind_inner hcc
    have hentry : childEntryOf P c = childEntryOf P c' := by
      unfold childEntryOf
      rw [hki.1, hki.2, hhash]
    have hmap : (pre ++ c :: post).map (childEntryOf P)
        = (pre ++ c' :: post).map (childEntryOf P) := by
      rw [List.map_append, List.map_append, List.map_cons, List.map_cons, hentry]
    show writeHeaderBytes k (P.objectKind x) ++ '\n' :: P.writeBytes x ++
        entryBlock (entriesRevOf P (pre ++ c :: post))
      = writeHeaderBytes k (P.objectKind x) ++ '\n' :: P.writeBytes x ++
        entryBlock (entriesRevOf P (pre ++ c' :: post))
    rw [entriesRevOf_eq_map, entriesRevOf_eq_map, hmap]
  | trans a2 b2 c2 h1 h2 ih1 ih2 =>
    intro hd
    exact (ih1 hd).trans (ih2 (permTree_distinct P h1 hd))

/-- Claim C2 (amended): child entries are always serialized in ascending
byte-wise lexicographic order of the entry name; and for input trees
whose children carry pairwise-distinct names at every node, permuting the
children lists leaves every node's serialized bytes and the root hash of
`ObjectTree::create_from_root` unchanged. (The unconditional invariance
is refuted: the sort is stable, so same-named siblings keep their input
order, and swapping them changes the serialized bytes and the root
hash.) -/
theorem claim2_theorem {T : Type} [Inhabited T] (P : PayloadOps T)
    (t t' : NodeWithChildren T) (hperm : PermTree t t')
    (hdist : distinctNames P t = true) (es : List NodeEntry) :
    List.Sorted entryLe (sortEntries es) ∧
    rootBytesOf P t = rootBytesOf P t' ∧
    ∀ ot ot', ObjectTree.createFromRoot P t = some (.ok ot) →
      ObjectTree.createFromRoot P t' = some (.ok ot') →
      ot.rootHash = ot'.rootHash := by
  refine ⟨sortEntries_sorted es, permTree_bytes P hperm hdist, ?_⟩
  intro ot ot' h1 h2
  rw [createFromRoot_master] at h1 h2
  have h1x : ObjectTree.mk (hashedGraphOfTree P t) 0 = ot := by simpa using h1
  have h2x : ObjectTree.mk (hashedGraphOfTree P t') 0 = ot' := by simpa using h2
  subst h1x
  subst h2x
  show ((hashedGraphOfTree P t).nodeAt 0).hash = ((hashedGraphOfTree P t').nodeAt 0).hash
  rw [(hashedGraph_node_facts P t (flattenPre_get_self t)).1,
    (hashedGraph_node_facts P t' (flattenPre_get_self t')).1]
  show hashOfTree P t = hashOfTree P t'
  rw [hashOfTree_eq_new, hashOfTree_eq_new, permTree_bytes P hperm hdist]

/-- Witness for C2: swapping the two distinctly named children of the
concrete tree leaves the serialized root bytes and the root hash
unchanged. -/
theorem claim2_witness :
    List.Sorted entryLe (sortEntries [exEntryBeta, exEntryAlpha]) ∧
    rootBytesOf propOps exTreeS2 = rootBytesOf propOps exTreeS2swap ∧
    ∀ ot ot', ObjectTree.createFromRoot propOps exTreeS2 = some (.ok ot) →
      ObjectTree.createFromRoot propOps exTreeS2swap = some (.ok ot') →
      ot.rootHash = ot'.rootHash := by
  refine claim2_theorem propOps exTreeS2 exTreeS2swap ?_ (by decide)
    [exEntryBeta, exEntryAlpha]
  unfold exTreeS2 exTreeS2swap
  exact PermTree.perm _ _ _ _ (List.Perm.swap _ _ _)

/-- Counterexample to the unconditional part of C2: two same-named
siblings keep their input order under the stable sort, so supplying them
in the opposite order changes the serialized bytes and the root hash of
the built object tree. -/
theorem claim2_counterexample :
    PermTree exTreeDup exTreeDupSwap ∧
    ObjectTree.createFromRoot propOps exTreeDup =
      some (.ok ⟨hashedGraphOfTree propOps exTreeDup, 0⟩) ∧
    ObjectTree.createFromRoot propOps exTreeDupSwap =
      some (.ok ⟨hashedGraphOfTree propOps exTreeDupSwap, 0⟩) ∧
    (⟨hashedGraphOfTree propOps exTreeDup, 0⟩ : ObjectTree PropPayload).rootHash ≠
      (⟨hashedGraphOfTree propOps exTreeDupSwap, 0⟩ : ObjectTree PropPayload).rootHash := by
  refine ⟨?_, createFromRoot_master propOps exTreeDup,
    createFromRoot_master propOps exTreeDupSwap, by decide⟩
  unfold exTreeDup exTreeDupSwap
  exact PermTree.perm _ _ _ _ (List.Perm.swap _ _ _)

end SI
